import Mathlib

/-!
Verification of the transcript encoding/decoding and merge pipeline of
`sigexport` (src/sigexport/main.py), via a shallow embedding: text is a
list of characters, files are an association list from paths to text, and
each Python function of interest is translated into a pure Lean function.
-/

set_option maxHeartbeats 1000000

set_option maxRecDepth 10000

namespace SigExport

/-- Text is modelled as a list of characters. -/
abbrev Str := List Char

/-- Convert a Lean string literal to the character-list representation. -/
def str (s : String) : Str := s.toList

/-- The backtick character (written by code to avoid literal backticks). -/
def btick : Char := Char.ofNat 96

/-- Python `file.readlines()`: split text into lines, each line keeping its
trailing newline; a final fragment with no newline is kept as-is; empty
input yields no lines. -/
def readLines : Str → List Str
  | [] => []
  | c :: cs =>
    if c = '\n' then ['\n'] :: readLines cs
    else
      match readLines cs with
      | [] => [[c]]
      | l :: ls => (c :: l) :: ls

/-! ## The header pattern
`lines_to_msgs` matches each line against the regex
`^(\[\d{4}-\d{2}-\d{2},{0,1} \d{2}:\d{2}\])(.*?:)(.*\n)` (re.match, so a
prefix match; `.` does not match a newline).  The matcher below embeds
that pattern piece by piece; each piece returns the consumed text and
the remaining input. -/

/-- Match one fixed character. -/
def matchChar (c : Char) : Str → Option (Str × Str)
  | [] => none
  | x :: xs => if x = c then some ([c], xs) else none

/-- Match exactly `n` digit characters (`\d{n}`). -/
def matchDigits : Nat → Str → Option (Str × Str)
  | 0, s => some ([], s)
  | _ + 1, [] => none
  | n + 1, x :: xs =>
    if x.isDigit then (matchDigits n xs).map (fun p => (x :: p.1, p.2)) else none

/-- Match an optional comma (`,{0,1}`).  The following pattern character is a
space, which is distinct from a comma, so the greedy regex semantics agree
with this deterministic version. -/
def matchOptComma : Str → (Str × Str)
  | [] => ([], [])
  | x :: xs => if x = ',' then ([','], xs) else ([], x :: xs)

/-- Lazy `.*?:`: the shortest newline-free run up to and including a colon. -/
def lazyUptoColon : Str → Option (Str × Str)
  | [] => none
  | c :: cs =>
    if c = ':' then some ([':'], cs)
    else if c = '\n' then none
    else (lazyUptoColon cs).map (fun p => (c :: p.1, p.2))

/-- Greedy `.*\n`: everything up to and including the first newline. -/
def uptoNl : Str → Option (Str × Str)
  | [] => none
  | c :: cs =>
    if c = '\n' then some (['\n'], cs)
    else (uptoNl cs).map (fun p => (c :: p.1, p.2))

/-- The three capture groups of the header regex applied to one line, or
`none` when the line does not match. -/
def headerMatch (s : Str) : Option (Str × Str × Str) :=
  match matchChar '[' s with
  | none => none
  | some (a1, r1) =>
  match matchDigits 4 r1 with
  | none => none
  | some (a2, r2) =>
  match matchChar '-' r2 with
  | none => none
  | some (a3, r3) =>
  match matchDigits 2 r3 with
  | none => none
  | some (a4, r4) =>
  match matchChar '-' r4 with
  | none => none
  | some (a5, r5) =>
  match matchDigits 2 r5 with
  | none => none
  | some (a6, r6) =>
  match matchOptComma r6 with
  | (a7, r7) =>
  match matchChar ' ' r7 with
  | none => none
  | some (a8, r8) =>
  match matchDigits 2 r8 with
  | none => none
  | some (a9, r9) =>
  match matchChar ':' r9 with
  | none => none
  | some (a10, r10) =>
  match matchDigits 2 r10 with
  | none => none
  | some (a11, r11) =>
  match matchChar ']' r11 with
  | none => none
  | some (a12, r12) =>
  match lazyUptoColon r12 with
  | none => none
  | some (g2, r13) =>
  match uptoNl r13 with
  | none => none
  | some (g3, _) =>
  some (a1 ++ a2 ++ a3 ++ a4 ++ a5 ++ a6 ++ a7 ++ a8 ++ a9 ++ a10 ++ a11 ++ a12, g2, g3)

/-- One parsed transcript record: the three capture groups of its header
line, with continuation lines accumulated onto the third. -/
structure PMsg where
  header : Str
  sender : Str
  body : Str
deriving DecidableEq, Repr

/-- Python `msgs[-1][-1] += li`: append text to the body of the last record. -/
def appendToLast : List PMsg → Str → List PMsg
  | [], _ => []
  | [m], li => [⟨m.header, m.sender, m.body ++ li⟩]
  | m :: m2 :: ms, li => m :: appendToLast (m2 :: ms) li

/-- One step of the `lines_to_msgs` loop: a matching line starts a new
record; a non-matching line is appended to the last record, and `none`
models the IndexError raised when there is no record yet. -/
def l2mStep (msgs : List PMsg) (li : Str) : Option (List PMsg) :=
  match headerMatch li with
  | some (g1, g2, g3) => some (msgs ++ [⟨g1, g2, g3⟩])
  | none =>
    match msgs with
    | [] => none
    | _ :: _ => some (appendToLast msgs li)

/-- The `lines_to_msgs` loop over the remaining lines. -/
def l2mFold (msgs : List PMsg) : List Str → Option (List PMsg)
  | [] => some msgs
  | li :: rest =>
    match l2mStep msgs li with
    | some msgs2 => l2mFold msgs2 rest
    | none => none

/-- `lines_to_msgs` from main.py: extract messages from lines of Markdown. -/
def lines_to_msgs (lines : List Str) : Option (List PMsg) := l2mFold [] lines

/-- A chunk: one header-matching line with its following continuations. -/
def goodChunk (c : List Str) : Prop :=
  ∃ L conts, c = L :: conts ∧ (headerMatch L).isSome ∧ ∀ x ∈ conts, headerMatch x = none

/-- The record a chunk parses to. -/
def chunkToMsg (c : List Str) : PMsg :=
  match c with
  | [] => ⟨[], [], []⟩
  | L :: conts =>
    match headerMatch L with
    | some (g1, g2, g3) => ⟨g1, g2, g3 ++ conts.flatten⟩
    | none => ⟨[], [], L ++ conts.flatten⟩

/-- The forward scanner that groups lines into chunks (`cur` is the chunk
being built, `chunks` the finished ones). -/
def chunksGo (cur : List Str) (chunks : List (List Str)) : List Str → List (List Str)
  | [] => chunks ++ [cur]
  | l :: ls =>
    if (headerMatch l).isSome then chunksGo [l] (chunks ++ [cur]) ls
    else chunksGo (cur ++ [l]) chunks ls

/-- Group a line list into chunks, breaking before each header line. -/
def splitChunks : List Str → List (List Str)
  | [] => []
  | l :: ls => chunksGo [l] [] ls

/-! ## Dedup and the merge engine

The file system is an association list from paths (component lists) to file
contents; `fsWrite` overwrites.  `merge_chat`, `merge_attachments` and
`merge_with_old` are translated from main.py, with raised/caught Python
exceptions made explicit (`ChatErr.fnf` is `FileNotFoundError`, caught by
`merge_with_old`; `ChatErr.crash` is the uncaught IndexError from
`lines_to_msgs` on a file that does not start with a header line). -/

/-- The text of one record as written back by `merge_chat`
(`m[0] + m[1] + m[2]` in the source). -/
def pmJoin (m : PMsg) : Str := m.header ++ m.sender ++ m.body

/-- Python `dict.fromkeys`: first-occurrence-wins, order-preserving dedup;
`seen` is the set of keys inserted so far. -/
def fromKeys [DecidableEq α] (seen : List α) : List α → List α
  | [] => []
  | x :: xs => if x ∈ seen then fromKeys seen xs else x :: fromKeys (x :: seen) xs

/-- First-occurrence-wins dedup, in the filter formulation (each kept
element deletes its later duplicates). -/
def dedupFirst [DecidableEq α] : List α → List α
  | [] => []
  | x :: xs => x :: dedupFirst (xs.filter (fun y => decide (y ≠ x)))
termination_by l => l.length
decreasing_by
  simp only [List.length_cons]
  exact Nat.lt_succ_of_le (List.length_filter_le _ _)

/-- The deduplicated merged record texts of `merge_chat`:
`list(dict.fromkeys([m[0] + m[1] + m[2] for m in old + new]))`. -/
def mergedMsgs (old new : List PMsg) : List Str :=
  fromKeys [] ((old ++ new).map pmJoin)

/-- A file path, as a list of components. -/
abbrev Path := List String

/-- A file system: association list from paths to file contents. -/
abbrev FS := List (Path × Str)

/-- Read a file (None models `FileNotFoundError` on open-for-read). -/
def fsRead (fs : FS) (p : Path) : Option Str :=
  (fs.find? (fun e => decide (e.1 = p))).map (fun e => e.2)

/-- Create or overwrite a file. -/
def fsWrite (fs : FS) (p : Path) (v : Str) : FS :=
  (p, v) :: fs.filter (fun e => decide (e.1 ≠ p))

/-- The regular files directly inside a directory (`dir.iterdir()` filtered
to files), as (basename, content) pairs. -/
def childFiles (fs : FS) (dir : Path) : List (String × Str) :=
  fs.filterMap (fun e =>
    if dir.isPrefixOf e.1 then
      match e.1.drop dir.length with
      | [n] => some (n, e.2)
      | _ => none
    else none)

/-- `merge_attachments` from main.py: `shutil.copy2` each regular file of
the old media directory into the new media directory.  `SameFileError`
(the only caught error) fires only when source and destination are the
same file, i.e. when the two directories coincide; otherwise an existing
destination file is overwritten by `copy2`. -/
def merge_attachments (fs : FS) (media_new media_old : Path) : FS :=
  (childFiles fs media_old).foldl (fun acc f =>
    if media_new ++ [f.1] = media_old ++ [f.1] then acc
    else fsWrite acc (media_new ++ [f.1]) f.2) fs

/-- Errors escaping `merge_chat`. -/
inductive ChatErr
  | fnf
  | crash
deriving DecidableEq, Repr

/-- `merge_chat` from main.py.  The `old_raw[0]`/`new_raw[-1]` log probe
raises IndexError exactly when either file has no lines, which returns
early; a parse failure of either file is an uncaught crash. -/
def merge_chat (fs : FS) (path_new path_old : Path) : Except ChatErr FS :=
  match fsRead fs path_old with
  | none => Except.error ChatErr.fnf
  | some oldC =>
    match fsRead fs path_new with
    | none => Except.error ChatErr.fnf
    | some newC =>
      let old_raw := readLines oldC
      let new_raw := readLines newC
      if old_raw.isEmpty || new_raw.isEmpty then Except.ok fs
      else
        match lines_to_msgs old_raw, lines_to_msgs new_raw with
        | some old, some new => Except.ok (fsWrite fs path_new (mergedMsgs old new).flatten)
        | _, _ => Except.error ChatErr.crash

/-- The names of subdirectories directly inside `root` (an entry strictly
deeper than one component below `root` witnesses a directory). -/
def childDirs (fs : FS) (root : Path) : List String :=
  fromKeys [] (fs.filterMap (fun e =>
    if root.isPrefixOf e.1 then
      match e.1.drop root.length with
      | n :: _ :: _ => some n
      | _ => none
    else none))

/-- Whether a path is an existing directory. -/
def isDirB (fs : FS) (p : Path) : Bool :=
  fs.any (fun e => p.isPrefixOf e.1 && decide (p.length < e.1.length))

/-- All entries strictly below `root`. -/
def subtree (fs : FS) (root : Path) : List (Path × Str) :=
  fs.filter (fun e => root.isPrefixOf e.1 && decide (root.length < e.1.length))

/-- `shutil.copytree(src, dst)`: copy the whole subtree; fails if `dst`
already exists as a file. -/
def copytree (fs : FS) (src dst : Path) : Option FS :=
  if (fsRead fs dst).isSome then none
  else some ((subtree fs src).foldl
    (fun acc e => fsWrite acc (dst ++ e.1.drop src.length) e.2) fs)

/-- One conversation directory of the `merge_with_old` loop. -/
def mwoStep (dest old : Path) (fs : FS) (name : String) : Option FS :=
  let dir_new := dest ++ [name]
  let dir_old := old ++ [name]
  if isDirB fs dir_new then
    let fs1 := merge_attachments fs (dir_new ++ ["media"]) (dir_old ++ ["media"])
    match merge_chat fs1 (dir_new ++ ["index.md"]) (dir_old ++ ["index.md"]) with
    | Except.ok fs2 => some fs2
    | Except.error ChatErr.fnf => some fs1
    | Except.error ChatErr.crash => none
  else copytree fs dir_old dir_new

/-- The `merge_with_old` loop over the old tree's conversation dirs. -/
def mwoGo (dest old : Path) (fs : FS) : List String → Option FS
  | [] => some fs
  | name :: rest =>
    match mwoStep dest old fs name with
    | some fs1 => mwoGo dest old fs1 rest
    | none => none

/-- `merge_with_old` from main.py (None models an uncaught exception
aborting the run). -/
def merge_with_old (fs : FS) (dest old : Path) : Option FS :=
  mwoGo dest old fs (childDirs fs old)

/-! ## Timestamps
`datetime.fromtimestamp` is modelled in UTC via the standard
civil-from-days algorithm; `strftime`/`isoformat` zero-pad their fields. -/

/-- A calendar datetime. -/
structure DT where
  y : Nat
  mo : Nat
  d : Nat
  h : Nat
  mi : Nat
  sec : Nat
  msec : Nat
deriving DecidableEq, Repr

/-- Civil date from days since 1970-01-01 (Gregorian calendar). -/
def civilFromDays (z0 : Nat) : Nat × Nat × Nat :=
  let z := z0 + 719468
  let era := z / 146097
  let doe := z % 146097
  let yoe := (doe - doe / 1460 + doe / 36524 - doe / 146096) / 365
  let y := yoe + era * 400
  let doy := doe - (365 * yoe + yoe / 4 - yoe / 100)
  let mp := (5 * doy + 2) / 153
  let d := doy - (153 * mp + 2) / 5 + 1
  let m := if mp < 10 then mp + 3 else mp - 9
  (if m ≤ 2 then y + 1 else y, m, d)

/-- `datetime.fromtimestamp(ms / 1000.0)` (UTC), at millisecond precision. -/
def msToDT (ms : Nat) : DT :=
  let secs := ms / 1000
  let cd := civilFromDays (secs / 86400)
  ⟨cd.1, cd.2.1, cd.2.2, secs % 86400 / 3600, secs % 3600 / 60, secs % 60, ms % 1000⟩

/-- Two zero-padded decimal digits (faithful to `%02d` for n < 100). -/
def fmt2 (n : Nat) : Str := [Nat.digitChar (n / 10 % 10), Nat.digitChar (n % 10)]

/-- Three zero-padded decimal digits (faithful to `%03d` for n < 1000). -/
def fmt3 (n : Nat) : Str :=
  [Nat.digitChar (n / 100 % 10), Nat.digitChar (n / 10 % 10), Nat.digitChar (n % 10)]

/-- Four zero-padded decimal digits (faithful to `%04d` for n < 10000). -/
def fmt4 (n : Nat) : Str :=
  [Nat.digitChar (n / 1000 % 10), Nat.digitChar (n / 100 % 10),
   Nat.digitChar (n / 10 % 10), Nat.digitChar (n % 10)]

/-- `strftime("%Y-%m-%d %H:%M")`. -/
def fmtMinute (dt : DT) : Str :=
  fmt4 dt.y ++ '-' :: (fmt2 dt.mo ++ '-' :: (fmt2 dt.d ++ ' ' :: (fmt2 dt.h ++ ':' :: fmt2 dt.mi)))

/-- `timestamp_format` from main.py: format a ms timestamp as
`2000-01-01 00:00`. -/
def timestamp_format (ts : Nat) : Str := fmtMinute (msToDT ts)

/-! ## Contacts and raw messages -/

/-- One reaction record (`fromId`, `emoji`). -/
structure Reaction where
  fromId : Str
  emoji : Str
deriving DecidableEq, Repr

/-- One raw message as consumed by `create_markdown`.  Optional fields model
missing keys and `None` values whose distinct Python behaviours collapse to
the same rendering; `sticker = some none` is a sticker payload without an
`emoji` key (body kept), `quoteText = some none` a quote whose `text` is
`None` (rendered as the string `None`). -/
structure RawMessage where
  sent_at : Option Nat
  type : Str
  callHistory : Option Bool
  body : Option Str
  source : Option Str
  conversationId : Option Str
  attachments : List Str
  reactions : List Reaction
  sticker : Option (Option Str)
  quoteText : Option (Option Str)
deriving DecidableEq, Repr

/-- One contact record. -/
structure Contact where
  name : Option Str
  number : Option Str
  is_group : Bool
deriving DecidableEq, Repr

/-- The contacts mapping, as an insertion-ordered association list
(Python dicts preserve insertion order). -/
abbrev Contacts := List (Str × Contact)

/-- Dictionary lookup. -/
def dictGet (contacts : Contacts) (k : Str) : Option Contact :=
  (contacts.find? (fun e => decide (e.1 = k))).map (fun e => e.2)

/-- Python f-string rendering of a possibly-None string. -/
def pyShow (o : Option Str) : Str :=
  match o with
  | some s => s
  | none => str "None"

/-! ## The renderer (`create_markdown`) -/

/-- Sender resolution of `create_markdown`: `"Me"` for outgoing; for groups
scan all contacts for a matching number (last match wins; a missing
`source` key raises KeyError caught to the `No-Sender` default); for 1:1
look up the conversation id. -/
def senderOf (contacts : Contacts) (is_group : Bool) (m : RawMessage) : Option Str :=
  if m.type = str "outgoing" then some (str "Me")
  else if is_group then
    match m.source with
    | none => some (str "No-Sender")
    | some src =>
      contacts.foldl (fun acc e => if e.2.number = some src then e.2.name else acc)
        (some (str "No-Sender"))
  else
    match m.conversationId with
    | none => some (str "No-Sender")
    | some cid =>
      match dictGet contacts cid with
      | none => some (str "No-Sender")
      | some c => c.name

/-- The initial body: call marker for call-history messages (empty on a
missing `callHistoryDetails` key), else the body text, else empty. -/
def bodyBase (m : RawMessage) : Str :=
  if m.type = str "call-history" then
    match m.callHistory with
    | some true => str "Incoming call"
    | some false => str "Outgoing call"
    | none => []
  else
    match m.body with
    | some b => b
    | none => []

/-- Replace every occurrence of a character by a string. -/
def replaceCharStr (a : Char) (r : Str) (s : Str) : Str :=
  (s.map (fun c => if c = a then r else [c])).flatten

/-- The final component of a slash-separated path. -/
def afterLastSlash (p : Str) : Str :=
  p.foldl (fun acc c => if c = '/' then [] else acc ++ [c]) []

/-- `pathlib.Path(...).suffix` without its dot: the extension after the
last dot of `base`, none when the dot is absent, first, or last. -/
def pySuffixExt (base : Str) : Option Str :=
  let r := base.reverse
  let ext := r.takeWhile (fun c => decide (c ≠ '.'))
  let rest := r.dropWhile (fun c => decide (c ≠ '.'))
  match rest with
  | [] => none
  | [_] => none
  | _ :: _ :: _ => if ext = [] then none else some ext.reverse

/-- The image extensions inlined in `create_markdown`. -/
def imageExts : List Str :=
  [str "png", str "jpg", str "jpeg", str "gif", str "tif", str "tiff"]

/-- One attachment reference appended to the body:
`[file](./media/path)` with spaces of the link target escaped as `%20`,
prefixed `!` for image extensions, followed by the two-space marker. -/
def attRef (file_name : Str) : Str :=
  let path := replaceCharStr ' ' (str "%20") (str "media/" ++ file_name)
  let isImg :=
    match pySuffixExt (afterLastSlash path) with
    | some ext => imageExts.contains ext
    | none => false
  (if isImg then ['!'] else []) ++ '[' :: (file_name ++ str "](./" ++ path ++ str ")  ")

/-- The reaction block `\n(- name: emoji, name: emoji -)`; reactions whose
sender is not a known contact are skipped. -/
def reactionsStr (contacts : Contacts) (rs : List Reaction) : Str :=
  let names := rs.filterMap (fun r =>
    (dictGet contacts r.fromId).map (fun c => pyShow c.name ++ ':' :: ' ' :: r.emoji))
  str "\n(- " ++ List.intercalate (str ", ") names ++ str " -)"

/-- The quote block `\n>\n> text\n>\n` (when quoting is enabled). -/
def quoteStrOf (add_quote : Bool) (m : RawMessage) : Str :=
  if add_quote then
    match m.quoteText with
    | none => []
    | some none => str "\n>\n> None\n>\n"
    | some (some t) => str "\n>\n> " ++ t ++ str "\n>\n"
  else []

/-- The fully assembled message body of `create_markdown`: base body with
backticks stripped and the two-space marker appended, then attachment
references, then the reaction block; a sticker with an emoji replaces
everything. -/
def msgBody (contacts : Contacts) (m : RawMessage) : Str :=
  let body := (bodyBase m).filter (fun c => decide (c ≠ btick)) ++ str "  "
  let body := body ++ (m.attachments.map attRef).flatten
  let body := if m.reactions.isEmpty then body else body ++ reactionsStr contacts m.reactions
  match m.sticker with
  | some (some e) => e
  | _ => body

/-- The date header text (fallback for a missing/None `sent_at`). -/
def dateOf (m : RawMessage) : Str :=
  match m.sent_at with
  | some ts => timestamp_format ts
  | none => str "1970-01-01 00:00"

/-- One rendered transcript record:
`f"[{date}] {sender}: {quote}{body}"`. -/
def render_msg (contacts : Contacts) (is_group add_quote : Bool) (m : RawMessage) : Str :=
  '[' :: (dateOf m ++ str "] " ++ pyShow (senderOf contacts is_group m) ++ str ": " ++
    quoteStrOf add_quote m ++ msgBody contacts m)

/-- One record as written to the transcript file (`print` appends `\n`). -/
def render_line (contacts : Contacts) (is_group add_quote : Bool) (m : RawMessage) : Str :=
  render_msg contacts is_group add_quote m ++ ['\n']

/-- `create_markdown` for one conversation: the transcript file text. -/
def create_markdown (contacts : Contacts) (is_group add_quote : Bool)
    (msgs : List RawMessage) : Str :=
  (msgs.map (render_line contacts is_group add_quote)).flatten

/-- The record the parser recovers for one rendered message: the bracketed
date, the sender with its leading space and colon, and the body (quote,
rendered body and markers) with its leading space and trailing newline. -/
def expectedParse (contacts : Contacts) (is_group add_quote : Bool) (m : RawMessage) : PMsg :=
  ⟨'[' :: (dateOf m ++ [']']),
   ' ' :: (pyShow (senderOf contacts is_group m) ++ [':']),
   ' ' :: (quoteStrOf add_quote m ++ msgBody contacts m ++ ['\n'])⟩

/-- "No pathological characters" for the round-trip: the resolved sender
contains no colon and no newline; the formatted date fields are in the
zero-padded range; and no continuation line of the rendered body starts
with `[` (which could collide with the header pattern). -/
def nonPathologicalB (contacts : Contacts) (is_group add_quote : Bool) (m : RawMessage) : Bool :=
  (pyShow (senderOf contacts is_group m)).all
    (fun c => decide (c ≠ ':') && decide (c ≠ '\n')) &&
  (match m.sent_at with
   | none => true
   | some ts =>
     decide ((msToDT ts).y ≤ 9999) && decide ((msToDT ts).mo ≤ 99) &&
     decide ((msToDT ts).d ≤ 99) && decide ((msToDT ts).h ≤ 99) &&
     decide ((msToDT ts).mi ≤ 99)) &&
  (readLines (quoteStrOf add_quote m ++ msgBody contacts m ++ ['\n'])).tail.all
    (fun l => decide (l.head? ≠ some '['))

/-! ## `fix_names` -/

/-- Decimal representation of a natural number. -/
def natStr (n : Nat) : Str := (Nat.repr n).toList

/-- `"".join(x for x in emoji.demojize(name) if x.isalnum())`; the external
`emoji.demojize` is a parameter. -/
def sanitizeName (demojize : Str → Str) (n : Str) : Str :=
  (demojize n).filter (fun c => c.isAlphanum)

/-- The smallest suffix ≥ 2 making `base ++ suffix` fresh (the `while`
loop; by pigeonhole it is found within `used.length + 1` candidates, so
the fallback arm is unreachable). -/
def findSuffixNum (base : Str) (used : List Str) : Nat :=
  match (List.range (used.length + 1)).find?
      (fun k => decide ((base ++ natStr (k + 2)) ∉ used)) with
  | some k => k + 2
  | none => used.length + 3

/-- The `fix_names` loop.  A contact whose name is None is passed through
untouched: the number fallback is computed by the source but discarded by
the `is not None` guard. -/
def fixNamesGo (demojize : Str → Str) (used : List Str) :
    List (Str × Contact) → List (Str × Contact)
  | [] => []
  | (k, c) :: rest =>
    match c.name with
    | none => (k, c) :: fixNamesGo demojize used rest
    | some n =>
      let n1 := sanitizeName demojize n
      let n1 := if n1 = [] then str "unnamed" else n1
      let n2 := if n1 ∈ used then n1 ++ natStr (findSuffixNum n1 used) else n1
      (k, ⟨some n2, c.number, c.is_group⟩) :: fixNamesGo demojize (n2 :: used) rest

/-- `fix_names` from main.py: convert contact names to filesystem-friendly
unique names. -/
def fix_names (demojize : Str → Str) (contacts : List (Str × Contact)) :
    List (Str × Contact) :=
  fixNamesGo demojize [] contacts

/-! ## Attachment naming (`copy_attachments`) -/

/-- `str.replace` with single characters. -/
def rep (a b : Char) (s : Str) : Str := s.map (fun c => if c = a then b else c)

/-- `str.replace(c, "")`. -/
def del (a : Char) (s : Str) : Str := s.filter (fun c => decide (c ≠ a))

/-- Python `str.split(sep)` for a single-character separator. -/
def splitOnChar (sep : Char) : Str → List Str
  | [] => [[]]
  | c :: cs =>
    if c = sep then [] :: splitOnChar sep cs
    else
      match splitOnChar sep cs with
      | [] => [[c]]
      | p :: ps => (c :: p) :: ps

/-- `contentType.split("/")[1]`, falling back to `[0]` on IndexError. -/
def extFromContentType (ct : Str) : Str :=
  match splitOnChar '/' ct with
  | _ :: e :: _ => e
  | [p] => p
  | [] => []

/-- `f"{i:02}"`. -/
def pad2idx (i : Nat) : Str := if i < 10 then '0' :: natStr i else natStr i

/-- `datetime.isoformat(timespec="milliseconds")`. -/
def isoMs (dt : DT) : Str :=
  fmt4 dt.y ++ '-' :: (fmt2 dt.mo ++ '-' :: (fmt2 dt.d ++ 'T' ::
    (fmt2 dt.h ++ ':' :: (fmt2 dt.mi ++ ':' :: (fmt2 dt.sec ++ '.' :: fmt3 dt.msec)))))

/-- The `date` variable of `copy_attachments`: the isoformat timestamp with
colons replaced by dashes. -/
def attDate (ts : Nat) : Str := rep ':' '-' (isoMs (msToDT ts))

/-- The destination basename `copy_attachments` assigns to one attachment:
`f"{date}_{i:02}_{file_name}"` (missing fileName becomes `"None"`, an
extensionless name gains one from the content type) with spaces to
underscores, slashes to dashes, commas deleted and colons to dashes. -/
def copy_attachments_name (ts i : Nat) (fileName : Option Str) (contentType : Str) : Str :=
  let file_name :=
    match fileName with
    | some f => f
    | none => str "None"
  let file_name :=
    if file_name.contains '.' then file_name
    else file_name ++ '.' :: extFromContentType contentType
  rep ':' '-' (del ',' (rep '/' '-' (rep ' ' '_'
    (attDate ts ++ '_' :: (pad2idx i ++ '_' :: file_name)))))

/-- The source-path normalisation `str(att["path"]).replace("\\", "/")`. -/
def att_path_norm (p : Str) : Str := rep '\\' '/' p

/-! ## Pagination (`create_html`) -/

/-- One page's navigation state: its id and the targets of the Prev/Next
links (`none` is a disabled link, rendered as bare text). -/
structure Page where
  id : Nat
  prev : Option Nat
  next : Option Nat
deriving DecidableEq, Repr

/-- The page `<div>` opened at a page boundary, with Prev disabled on page
0 and Next disabled on page `last_page` (`int(len(lines)/msgs_per_page)`). -/
def pageOpen (last_page pn : Nat) : Page :=
  ⟨pn, if pn ≠ 0 then some (pn - 1) else none,
    if pn ≠ last_page then some (pn + 1) else none⟩

/-- One iteration of the `create_html` message loop, tracking the pages
opened so far and the page index assigned to each message. -/
def pageStep (last_page mpp : Nat) (st : List Page × List Nat) (i : Nat) :
    List Page × List Nat :=
  let pages := if i % mpp = 0 then st.1 ++ [pageOpen last_page st.1.length] else st.1
  (pages, st.2 ++ [pages.length - 1])

/-- The pagination skeleton of `create_html` for a conversation of `n`
messages at `mpp` messages per page: the opened pages and the page index
of every message. -/
def create_html_pages (n mpp : Nat) : List Page × List Nat :=
  (List.range n).foldl (pageStep (n / mpp) mpp) ([], [])

/-- Whether a string ends in the two-space soft-break marker. -/
def endsTwoSpaces (s : Str) : Bool := decide (s.reverse.take 2 = [' ', ' '])

/-- Whether a sticker payload replaces the body entirely. -/
def stickerReplaces (m : RawMessage) : Bool :=
  match m.sticker with
  | some (some _) => true
  | _ => false

/-! ## Pagination closed form -/

/-- The number of pages opened for `n` messages: `ceil(n / mpp)`. -/
def numPages (n mpp : Nat) : Nat := (n + mpp - 1) / mpp

/-! ## Concrete fixtures for witnesses and counterexamples -/

/-- A small contacts table. -/
def ccW : Contacts := [(str "c1", ⟨some (str "Alice"), some (str "+1"), false⟩)]

/-- An outgoing text message. -/
def mW1 : RawMessage := ⟨none, str "outgoing", none, some (str "hi"), none, none, [], [], none, none⟩

/-- An incoming message with an attachment and a reaction. -/
def mW2 : RawMessage := ⟨none, str "incoming", none, some (str "see"), none, some (str "c1"),
  [str "cat.jpg"], [⟨str "c1", str "OK"⟩], none, none⟩

/-- An incoming message with an attachment, no reactions, no sticker. -/
def mW3 : RawMessage := ⟨none, str "incoming", none, some (str "pic"), none, some (str "c1"),
  [str "cat.jpg"], [], none, none⟩

/-- A sticker message (body is replaced by the sticker emoji). -/
def stickerM : RawMessage :=
  ⟨none, str "incoming", none, some (str "x"), none, none, [], [], some (some (str "S")), none⟩

/-- A message carrying one reaction. -/
def reactM : RawMessage :=
  ⟨none, str "incoming", none, some (str "x"), none, none, [], [⟨str "c1", str "OK"⟩], none, none⟩

/-- Parsed records A, B, C, D for the merge example. -/
def pA : PMsg := ⟨str "[2024-01-01 00:01]", str " a:", str " A\n"⟩

def pB : PMsg := ⟨str "[2024-01-01 00:02]", str " a:", str " B\n"⟩

def pC : PMsg := ⟨str "[2024-01-01 00:03]", str " a:", str " C\n"⟩

def pD : PMsg := ⟨str "[2024-01-01 00:04]", str " a:", str " D\n"⟩

/-- Old and new transcript paths of the merge example. -/
def c2old : Path := ["old", "index.md"]

/-- New transcript path of the merge example. -/
def c2new : Path := ["new", "index.md"]

/-- A file system with old = A,B,C and new = B,C,D. -/
def c2fs : FS := [(c2old, pmJoin pA ++ pmJoin pB ++ pmJoin pC),
  (c2new, pmJoin pB ++ pmJoin pC ++ pmJoin pD)]

/-- A two-conversation tree for the merge frame witness. -/
def tW : FS := [(["old", "Foo", "media", "x.jpg"], str "X"),
  (["old", "Foo", "index.md"], str "[2024-01-01 00:01] a: A\n"),
  (["new", "Foo", "index.md"], str "[2024-01-01 00:02] a: B\n"),
  (["old", "Bar", "index.md"], str "[2024-01-01 00:03] a: C\n")]

/-- Transcript lines for the parser witnesses. -/
def lH1 : Str := str "[2024-01-01 00:01] a: A  \n"

/-- A continuation line. -/
def lCont : Str := str "cont\n"

/-- A second header line. -/
def lH2 : Str := str "[2024-01-01 00:02] b: B  \n"

/-- A line that does not match the header pattern. -/
def lBad : Str := str "(- a: b -)\n"

/-- The colliding-attachment file system of the merge bug. -/
def c8fs : FS := [(["old", "media", "x.jpg"], str "OLD"),
  (["new", "media", "x.jpg"], str "NEW")]

theorem readLines_cons_nl (cs : Str) : readLines ('\n' :: cs) = ['\n'] :: readLines cs := by
  simp [readLines]

theorem readLines_cons_of_ne {c : Char} (cs : Str) (hc : c ≠ '\n') :
    readLines (c :: cs) =
      match readLines cs with
      | [] => [[c]]
      | l :: ls => (c :: l) :: ls := by
  simp [readLines, hc]

theorem readLines_join : ∀ s : Str, (readLines s).flatten = s := by
  intro s
  induction s with
  | nil => rfl
  | cons c cs ih =>
    by_cases hc : c = '\n'
    · subst hc
      rw [readLines_cons_nl]
      simp [ih]
    · rw [readLines_cons_of_ne cs hc]
      cases h : readLines cs with
      | nil =>
        have hcs : cs = [] := by rw [← ih, h]; rfl
        simp [hcs]
      | cons l ls =>
        have : (l :: ls).flatten = cs := by rw [← h, ih]
        simpa using this

theorem readLines_ne_nil {s : Str} (h : s ≠ []) : readLines s ≠ [] := by
  cases s with
  | nil => exact absurd rfl h
  | cons c cs =>
    by_cases hc : c = '\n'
    · subst hc; rw [readLines_cons_nl]; simp
    · rw [readLines_cons_of_ne cs hc]
      cases hr : readLines cs <;> simp

/-- Splitting at the first newline: if `xs` has no newline, the first line
of `xs ++ '\n' :: ys` is `xs ++ ['\n']`. -/
theorem readLines_break {xs : Str} (ys : Str) (h : '\n' ∉ xs) :
    readLines (xs ++ '\n' :: ys) = (xs ++ ['\n']) :: readLines ys := by
  induction xs with
  | nil => simp [readLines_cons_nl]
  | cons c cs ih =>
    have hc : c ≠ '\n' := fun hc => h (hc ▸ List.mem_cons_self c cs)
    have hcs : '\n' ∉ cs := fun hm => h (List.mem_cons_of_mem c hm)
    rw [List.cons_append, readLines_cons_of_ne _ hc, ih hcs]
    rfl

/-- A string whose last character is a newline splits off cleanly under
`readLines` from whatever follows it. -/
theorem readLines_append {a : Str} (b : Str) (ha : a.getLast? = some '\n') :
    readLines (a ++ b) = readLines a ++ readLines b := by
  induction a with
  | nil => simp at ha
  | cons c cs ih =>
    cases cs with
    | nil =>
      have : c = '\n' := by simpa [List.getLast?_singleton] using ha
      subst this
      rw [List.cons_append, List.nil_append, readLines_cons_nl, readLines_cons_nl]
      rfl
    | cons d ds =>
      have ha' : (d :: ds).getLast? = some '\n' := by
        rwa [List.getLast?_cons_cons] at ha
      have h1 := ih ha'
      by_cases hc : c = '\n'
      · subst hc
        rw [List.cons_append, readLines_cons_nl, readLines_cons_nl, h1, List.cons_append]
      · obtain ⟨l, ls, hr⟩ : ∃ l ls, readLines (d :: ds) = l :: ls := by
          cases hr : readLines (d :: ds) with
          | nil => exact absurd hr (readLines_ne_nil (by simp))
          | cons l ls => exact ⟨l, ls, rfl⟩
        rw [List.cons_append, readLines_cons_of_ne _ hc, readLines_cons_of_ne _ hc, hr, h1, hr]
        simp

/-! ### Soundness of the matcher pieces: what was consumed is an initial
segment of the input, and it contains no newline (except the final newline
of the `.*\n` group). -/

theorem matchChar_eq {c : Char} {s t r : Str} (h : matchChar c s = some (t, r)) :
    t = [c] ∧ s = c :: r := by
  cases s with
  | nil => simp [matchChar] at h
  | cons x xs =>
    by_cases hx : x = c
    · simp [matchChar, hx] at h
      exact ⟨h.1.symm, by rw [hx, h.2]⟩
    · simp [matchChar, hx] at h

theorem matchDigits_eq : ∀ {n : Nat} {s t r : Str}, matchDigits n s = some (t, r) →
    s = t ++ r ∧ ∀ x ∈ t, x.isDigit := by
  intro n
  induction n with
  | zero =>
    intro s t r h
    simp only [matchDigits, Option.some.injEq, Prod.mk.injEq] at h
    obtain ⟨ht, hr⟩ := h
    subst ht
    simp [hr]
  | succ n ih =>
    intro s t r h
    cases s with
    | nil => simp [matchDigits] at h
    | cons x xs =>
      by_cases hx : x.isDigit
      · cases hm : matchDigits n xs with
        | none => simp [matchDigits, hx, hm] at h
        | some p =>
          obtain ⟨t', r'⟩ := p
          simp only [matchDigits, if_pos hx, hm, Option.map_some', Option.some.injEq,
            Prod.mk.injEq] at h
          obtain ⟨ht, hr⟩ := h
          subst ht
          subst hr
          obtain ⟨h1, h2⟩ := ih hm
          refine ⟨by simp [h1], ?_⟩
          intro y hy
          rcases List.mem_cons.mp hy with hy | hy
          · rwa [hy]
          · exact h2 y hy
      · simp [matchDigits, hx] at h

theorem matchOptComma_eq {s t r : Str} (h : matchOptComma s = (t, r)) :
    s = t ++ r ∧ '\n' ∉ t := by
  cases s with
  | nil =>
    simp only [matchOptComma, Prod.mk.injEq] at h
    obtain ⟨ht, hr⟩ := h
    subst ht
    subst hr
    exact ⟨rfl, by simp⟩
  | cons x xs =>
    by_cases hx : x = ','
    · simp only [matchOptComma, if_pos hx, Prod.mk.injEq] at h
      obtain ⟨ht, hr⟩ := h
      subst ht
      subst hr
      subst hx
      exact ⟨rfl, by simp⟩
    · simp only [matchOptComma, if_neg hx, Prod.mk.injEq] at h
      obtain ⟨ht, hr⟩ := h
      subst ht
      subst hr
      exact ⟨rfl, by simp⟩

theorem lazyUptoColon_eq : ∀ {s t r : Str}, lazyUptoColon s = some (t, r) →
    s = t ++ r ∧ '\n' ∉ t := by
  intro s
  induction s with
  | nil => intro t r h; simp [lazyUptoColon] at h
  | cons c cs ih =>
    intro t r h
    by_cases hc : c = ':'
    · simp only [lazyUptoColon, if_pos hc, Option.some.injEq, Prod.mk.injEq] at h
      obtain ⟨ht, hr⟩ := h
      subst ht
      subst hr
      subst hc
      exact ⟨rfl, by simp⟩
    · by_cases hn : c = '\n'
      · simp [lazyUptoColon, hc, hn] at h
      · cases hm : lazyUptoColon cs with
        | none => simp [lazyUptoColon, hc, hn, hm] at h
        | some p =>
          obtain ⟨t', r'⟩ := p
          simp only [lazyUptoColon, if_neg hc, if_neg hn, hm, Option.map_some',
            Option.some.injEq, Prod.mk.injEq] at h
          obtain ⟨ht, hr⟩ := h
          subst ht
          subst hr
          obtain ⟨h1, h2⟩ := ih hm
          refine ⟨by simp [h1], ?_⟩
          intro hmem
          rcases List.mem_cons.mp hmem with hy | hy
          · exact hn hy.symm
          · exact h2 hy

theorem uptoNl_eq : ∀ {s t r : Str}, uptoNl s = some (t, r) →
    s = t ++ r ∧ ∃ u, t = u ++ ['\n'] ∧ '\n' ∉ u := by
  intro s
  induction s with
  | nil => intro t r h; simp [uptoNl] at h
  | cons c cs ih =>
    intro t r h
    by_cases hc : c = '\n'
    · simp only [uptoNl, if_pos hc, Option.some.injEq, Prod.mk.injEq] at h
      obtain ⟨ht, hr⟩ := h
      subst ht
      subst hr
      subst hc
      exact ⟨rfl, [], rfl, by simp⟩
    · cases hm : uptoNl cs with
      | none => simp [uptoNl, hc, hm] at h
      | some p =>
        obtain ⟨t', r'⟩ := p
        simp only [uptoNl, if_neg hc, hm, Option.map_some', Option.some.injEq,
          Prod.mk.injEq] at h
        obtain ⟨ht, hr⟩ := h
        subst ht
        subst hr
        obtain ⟨h1, u, hu, hnu⟩ := ih hm
        refine ⟨by simp [h1], c :: u, by simp [hu], ?_⟩
        intro hmem
        rcases List.mem_cons.mp hmem with hy | hy
        · exact hc hy.symm
        · exact hnu hy

/-! ### Completeness of the matcher pieces. -/

theorem matchDigits_complete : ∀ {t : Str} (r : Str), (∀ c ∈ t, c.isDigit) →
    matchDigits t.length (t ++ r) = some (t, r) := by
  intro t
  induction t with
  | nil => intro r _; simp [matchDigits]
  | cons c cs ih =>
    intro r h
    have hc : c.isDigit := h c (List.mem_cons_self c cs)
    have hcs : ∀ x ∈ cs, x.isDigit := fun x hx => h x (List.mem_cons_of_mem c hx)
    simp only [List.length_cons, List.cons_append, matchDigits, if_pos hc]
    rw [List.append_eq, ih r hcs]
    rfl

theorem lazyUptoColon_complete {u : Str} (r : Str) (hcol : ':' ∉ u) (hnl : '\n' ∉ u) :
    lazyUptoColon (u ++ ':' :: r) = some (u ++ [':'], r) := by
  induction u with
  | nil => simp [lazyUptoColon]
  | cons c cs ih =>
    have hc : c ≠ ':' := fun hc => hcol (hc ▸ List.mem_cons_self c cs)
    have hn : c ≠ '\n' := fun hc => hnl (hc ▸ List.mem_cons_self c cs)
    have hcol' : ':' ∉ cs := fun hm => hcol (List.mem_cons_of_mem c hm)
    have hnl' : '\n' ∉ cs := fun hm => hnl (List.mem_cons_of_mem c hm)
    simp only [List.cons_append, lazyUptoColon, if_neg hc, if_neg hn]
    rw [List.append_eq, ih hcol' hnl']
    rfl

theorem uptoNl_complete {u : Str} (r : Str) (hnl : '\n' ∉ u) :
    uptoNl (u ++ '\n' :: r) = some (u ++ ['\n'], r) := by
  induction u with
  | nil => simp [uptoNl]
  | cons c cs ih =>
    have hn : c ≠ '\n' := fun hc => hnl (hc ▸ List.mem_cons_self c cs)
    have hnl' : '\n' ∉ cs := fun hm => hnl (List.mem_cons_of_mem c hm)
    simp only [List.cons_append, uptoNl, if_neg hn]
    rw [List.append_eq, ih hnl']
    rfl

/-- A line that does not start with `[` never matches the header pattern. -/
theorem headerMatch_none_of_head {l : Str} (h : ∀ c, l.head? = some c → c ≠ '[') :
    headerMatch l = none := by
  cases l with
  | nil => rfl
  | cons c cs =>
    have hc : c ≠ '[' := h c rfl
    have hm : matchChar '[' (c :: cs) = none := by simp [matchChar, hc]
    simp only [headerMatch, hm]

/-- Digits are never newlines. -/
theorem isDigit_ne_nl {c : Char} (h : c.isDigit = true) : c ≠ '\n' := by
  intro hc
  subst hc
  exact absurd h (by decide)

/-- The header match decomposes its input: the three groups are consumed in
order, the first two groups are newline-free, and the third ends at the
first newline. -/
theorem headerMatch_eq {s g1 g2 g3 : Str} (h : headerMatch s = some (g1, g2, g3)) :
    ∃ r, s = g1 ++ g2 ++ g3 ++ r ∧ '\n' ∉ g1 ∧ '\n' ∉ g2 ∧
      ∃ u, g3 = u ++ ['\n'] ∧ '\n' ∉ u := by
  unfold headerMatch at h
  split at h
  next => exact Option.noConfusion h
  next a1 r1 e1 =>
  split at h
  next => exact Option.noConfusion h
  next a2 r2 e2 =>
  split at h
  next => exact Option.noConfusion h
  next a3 r3 e3 =>
  split at h
  next => exact Option.noConfusion h
  next a4 r4 e4 =>
  split at h
  next => exact Option.noConfusion h
  next a5 r5 e5 =>
  split at h
  next => exact Option.noConfusion h
  next a6 r6 e6 =>
  split at h
  next a7 r7 e7 =>
  split at h
  next => exact Option.noConfusion h
  next a8 r8 e8 =>
  split at h
  next => exact Option.noConfusion h
  next a9 r9 e9 =>
  split at h
  next => exact Option.noConfusion h
  next a10 r10 e10 =>
  split at h
  next => exact Option.noConfusion h
  next a11 r11 e11 =>
  split at h
  next => exact Option.noConfusion h
  next a12 r12 e12 =>
  split at h
  next => exact Option.noConfusion h
  next g2c r13 e13 =>
  split at h
  next => exact Option.noConfusion h
  next g3c r14 e14 =>
  simp only [Option.some.injEq, Prod.mk.injEq] at h
  obtain ⟨hg1, hg2, hg3⟩ := h
  obtain ⟨ha1, hs1⟩ := matchChar_eq e1
  obtain ⟨hs2, hd2⟩ := matchDigits_eq e2
  obtain ⟨ha3, hs3⟩ := matchChar_eq e3
  obtain ⟨hs4, hd4⟩ := matchDigits_eq e4
  obtain ⟨ha5, hs5⟩ := matchChar_eq e5
  obtain ⟨hs6, hd6⟩ := matchDigits_eq e6
  obtain ⟨hs7, hn7⟩ := matchOptComma_eq e7
  obtain ⟨ha8, hs8⟩ := matchChar_eq e8
  obtain ⟨hs9, hd9⟩ := matchDigits_eq e9
  obtain ⟨ha10, hs10⟩ := matchChar_eq e10
  obtain ⟨hs11, hd11⟩ := matchDigits_eq e11
  obtain ⟨ha12, hs12⟩ := matchChar_eq e12
  obtain ⟨hs13, hn13⟩ := lazyUptoColon_eq e13
  obtain ⟨hs14, u, hu, hnu⟩ := uptoNl_eq e14
  subst hg2
  subst hg3
  have n1 : '\n' ∉ a1 := by rw [ha1]; decide
  have n2 : '\n' ∉ a2 := fun hm => isDigit_ne_nl (hd2 _ hm) rfl
  have n3 : '\n' ∉ a3 := by rw [ha3]; decide
  have n4 : '\n' ∉ a4 := fun hm => isDigit_ne_nl (hd4 _ hm) rfl
  have n5 : '\n' ∉ a5 := by rw [ha5]; decide
  have n6 : '\n' ∉ a6 := fun hm => isDigit_ne_nl (hd6 _ hm) rfl
  have n8 : '\n' ∉ a8 := by rw [ha8]; decide
  have n9 : '\n' ∉ a9 := fun hm => isDigit_ne_nl (hd9 _ hm) rfl
  have n10 : '\n' ∉ a10 := by rw [ha10]; decide
  have n11 : '\n' ∉ a11 := fun hm => isDigit_ne_nl (hd11 _ hm) rfl
  have n12 : '\n' ∉ a12 := by rw [ha12]; decide
  refine ⟨r14, ?_, ?_, hn13, u, hu, hnu⟩
  · rw [hs1, hs2, hs3, hs4, hs5, hs6, hs7, hs8, hs9, hs10, hs11, hs12, hs13, hs14,
      ← hg1, ha1, ha3, ha5, ha8, ha10, ha12]
    simp
  · rw [← hg1]
    intro hmem
    simp only [List.mem_append] at hmem
    tauto

/-- A list with a known last element is its `dropLast` plus that element. -/
theorem eq_dropLast_concat : ∀ {l : Str} {c : Char}, l.getLast? = some c →
    l = l.dropLast ++ [c] := by
  intro l
  induction l with
  | nil => intro c h; exact absurd h (by simp)
  | cons x xs ih =>
    intro c h
    cases xs with
    | nil =>
      simp only [List.getLast?_singleton, Option.some.injEq] at h
      subst h
      rfl
    | cons y ys =>
      rw [List.getLast?_cons_cons] at h
      have := ih h
      calc x :: y :: ys = x :: ((y :: ys).dropLast ++ [c]) := by rw [← this]
        _ = (x :: y :: ys).dropLast ++ [c] := by simp [List.dropLast_cons₂]

/-- If a string has exactly one newline, at its end, then splitting it at a
newline is unambiguous. -/
theorem nl_decomp : ∀ {a x y : Str}, '\n' ∉ a → '\n' ∉ x →
    a ++ ['\n'] = x ++ '\n' :: y → x = a ∧ y = [] := by
  intro a
  induction a with
  | nil =>
    intro x y _ hx he
    cases x with
    | nil =>
      refine ⟨rfl, ?_⟩
      have h2 : ['\n'] = '\n' :: y := by simpa using he
      exact (List.cons.inj h2).2.symm
    | cons d ds =>
      simp only [List.nil_append, List.cons_append, List.cons.injEq] at he
      exact absurd he.2 (by simp)
  | cons c a' ih =>
    intro x y ha hx he
    have hc : c ≠ '\n' := fun hc => ha (hc ▸ List.mem_cons_self c a')
    have ha' : '\n' ∉ a' := fun hm => ha (List.mem_cons_of_mem c hm)
    cases x with
    | nil =>
      simp only [List.nil_append, List.cons_append, List.cons.injEq] at he
      exact absurd he.1 hc
    | cons d ds =>
      simp only [List.cons_append, List.cons.injEq] at he
      have hds : '\n' ∉ ds := fun hm => hx (List.mem_cons_of_mem d hm)
      obtain ⟨h1, h2⟩ := ih ha' hds he.2
      exact ⟨by rw [he.1, h1], h2⟩

/-- On a wellformed line (single trailing newline), a successful header
match consumes the whole line: the groups concatenate back to it. -/
theorem headerMatch_total {l g1 g2 g3 : Str} (hnl : '\n' ∉ l.dropLast)
    (hlast : l.getLast? = some '\n') (h : headerMatch l = some (g1, g2, g3)) :
    g1 ++ g2 ++ g3 = l := by
  obtain ⟨r, hs, n1, n2, u, hu, hnu⟩ := headerMatch_eq h
  have hx : '\n' ∉ g1 ++ g2 ++ u := by
    intro hm
    rcases List.mem_append.mp hm with hm | hm
    · rcases List.mem_append.mp hm with hm | hm
      · exact n1 hm
      · exact n2 hm
    · exact hnu hm
  have he : l.dropLast ++ ['\n'] = (g1 ++ g2 ++ u) ++ '\n' :: r := by
    rw [← eq_dropLast_concat hlast, hs, hu]
    simp
  obtain ⟨h1, h2⟩ := nl_decomp hnl hx he
  rw [hs, h2, hu]
  simp

/-! ## Structure of the `lines_to_msgs` fold. -/

theorem appendToLast_snoc (ms : List PMsg) (m : PMsg) (li : Str) :
    appendToLast (ms ++ [m]) li = ms ++ [⟨m.header, m.sender, m.body ++ li⟩] := by
  induction ms with
  | nil => rfl
  | cons a as ih =>
    cases has : as ++ [m] with
    | nil => exact absurd has (by simp)
    | cons b bs =>
      rw [List.cons_append, has]
      show a :: appendToLast (b :: bs) li = _
      rw [← has, ih]
      rfl

theorem l2mStep_header {msgs : List PMsg} {li g1 g2 g3 : Str}
    (hli : headerMatch li = some (g1, g2, g3)) :
    l2mStep msgs li = some (msgs ++ [⟨g1, g2, g3⟩]) := by
  unfold l2mStep
  rw [hli]

theorem l2mStep_cont {msgs : List PMsg} {li : Str} (hli : headerMatch li = none)
    (hne : msgs ≠ []) : l2mStep msgs li = some (appendToLast msgs li) := by
  unfold l2mStep
  rw [hli]
  cases msgs with
  | nil => exact absurd rfl hne
  | cons a as => rfl

theorem l2mFold_cons_step {msgs msgs2 : List PMsg} {li : Str} (rest : List Str)
    (h : l2mStep msgs li = some msgs2) :
    l2mFold msgs (li :: rest) = l2mFold msgs2 rest := by
  conv_lhs => unfold l2mFold
  rw [h]

theorem l2mFold_append (a : List Str) : ∀ (b : List Str) (acc : List PMsg),
    l2mFold acc (a ++ b) = (l2mFold acc a).bind (fun ms => l2mFold ms b) := by
  induction a with
  | nil => intro b acc; rfl
  | cons li a' ih =>
    intro b acc
    cases e : l2mStep acc li with
    | none =>
      rw [List.cons_append]
      unfold l2mFold
      rw [e]
      rfl
    | some ms2 =>
      rw [List.cons_append, l2mFold_cons_step _ e, l2mFold_cons_step _ e, ih]

theorem l2mFold_conts (conts : List Str) : ∀ (pre : List PMsg) (m : PMsg),
    (∀ x ∈ conts, headerMatch x = none) →
    l2mFold (pre ++ [m]) conts =
      some (pre ++ [⟨m.header, m.sender, m.body ++ conts.flatten⟩]) := by
  induction conts with
  | nil =>
    intro pre m _
    simp [l2mFold]
  | cons x xs ih =>
    intro pre m hc
    have hx : headerMatch x = none := hc x (List.mem_cons_self x xs)
    have hxs : ∀ y ∈ xs, headerMatch y = none := fun y hy => hc y (List.mem_cons_of_mem x hy)
    have hstep : l2mStep (pre ++ [m]) x = some (pre ++ [⟨m.header, m.sender, m.body ++ x⟩]) := by
      rw [l2mStep_cont hx (by simp), appendToLast_snoc]
    rw [l2mFold_cons_step _ hstep, ih pre _ hxs]
    simp

/-- Folding the parser over one chunk (a matching header line followed by
non-matching continuation lines) appends exactly one record, whose body is
the third group followed by the continuation lines verbatim. -/
theorem l2mFold_chunk {L g1 g2 g3 : Str} (conts : List Str) (acc : List PMsg)
    (hL : headerMatch L = some (g1, g2, g3)) (hc : ∀ x ∈ conts, headerMatch x = none) :
    l2mFold acc (L :: conts) = some (acc ++ [⟨g1, g2, g3 ++ conts.flatten⟩]) := by
  rw [l2mFold_cons_step _ (l2mStep_header hL)]
  exact l2mFold_conts conts acc ⟨g1, g2, g3⟩ hc

theorem l2mFold_chunks : ∀ (chunks : List (List Str)) (acc : List PMsg),
    (∀ c ∈ chunks, goodChunk c) →
    l2mFold acc chunks.flatten = some (acc ++ chunks.map chunkToMsg) := by
  intro chunks
  induction chunks with
  | nil => intro acc _; simp [l2mFold]
  | cons c cs ih =>
    intro acc h
    obtain ⟨L, conts, hc, hsome, hnone⟩ := h c (List.mem_cons_self c cs)
    obtain ⟨⟨g1, g2, g3⟩, hL⟩ := Option.isSome_iff_exists.mp hsome
    subst hc
    have hflat : ((L :: conts) :: cs).flatten = (L :: conts) ++ cs.flatten := by simp
    rw [hflat, l2mFold_append, l2mFold_chunk conts acc hL hnone]
    simp only [Option.some_bind']
    rw [ih _ (fun d hd => h d (List.mem_cons_of_mem _ hd))]
    have hck : chunkToMsg (L :: conts) = ⟨g1, g2, g3 ++ conts.flatten⟩ := by
      simp only [chunkToMsg, hL]
    rw [List.map_cons, hck]
    simp

theorem chunksGo_flatten : ∀ (ls : List Str) (cur : List Str) (chunks : List (List Str)),
    (chunksGo cur chunks ls).flatten = chunks.flatten ++ cur ++ ls := by
  intro ls
  induction ls with
  | nil => intro cur chunks; simp [chunksGo]
  | cons l ls ih =>
    intro cur chunks
    by_cases hl : (headerMatch l).isSome
    · simp only [chunksGo, if_pos hl, ih]
      simp
    · simp only [chunksGo, if_neg hl, ih]
      simp

theorem chunksGo_good : ∀ (ls : List Str) (cur : List Str) (chunks : List (List Str)),
    goodChunk cur → (∀ c ∈ chunks, goodChunk c) →
    ∀ c ∈ chunksGo cur chunks ls, goodChunk c := by
  intro ls
  induction ls with
  | nil =>
    intro cur chunks hcur hchunks c hc
    simp only [chunksGo, List.mem_append, List.mem_singleton] at hc
    rcases hc with hc | hc
    · exact hchunks c hc
    · rw [hc]; exact hcur
  | cons l ls ih =>
    intro cur chunks hcur hchunks c hc
    by_cases hl : (headerMatch l).isSome
    · rw [chunksGo, if_pos hl] at hc
      refine ih [l] (chunks ++ [cur]) ⟨l, [], rfl, hl, by simp⟩ ?_ c hc
      intro d hd
      rcases List.mem_append.mp hd with hd | hd
      · exact hchunks d hd
      · rw [List.mem_singleton.mp hd]; exact hcur
    · rw [chunksGo, if_neg hl] at hc
      obtain ⟨L, conts, hc2, hsome, hnone⟩ := hcur
      refine ih (cur ++ [l]) chunks ⟨L, conts ++ [l], by rw [hc2]; simp, hsome, ?_⟩ hchunks c hc
      intro x hx
      rcases List.mem_append.mp hx with hx | hx
      · exact hnone x hx
      · rw [List.mem_singleton.mp hx]
        exact Option.not_isSome_iff_eq_none.mp hl

theorem chunksGo_length : ∀ (ls : List Str) (cur : List Str) (chunks : List (List Str)),
    (chunksGo cur chunks ls).length =
      chunks.length + 1 + ls.countP (fun l => (headerMatch l).isSome) := by
  intro ls
  induction ls with
  | nil => intro cur chunks; simp [chunksGo]
  | cons l ls ih =>
    intro cur chunks
    by_cases hl : (headerMatch l).isSome
    · rw [chunksGo, if_pos hl, ih, List.countP_cons]
      simp [hl]
      omega
    · rw [chunksGo, if_neg hl, ih, List.countP_cons]
      simp [hl]

/-! ## Completeness of the header match on rendered records -/

theorem digitChar_mod_isDigit (x : Nat) : (Nat.digitChar (x % 10)).isDigit = true := by
  have h10 : x % 10 < 10 := Nat.mod_lt _ (by decide)
  have hfin : ∀ k : Fin 10, (Nat.digitChar k.val).isDigit = true := by decide
  exact hfin ⟨x % 10, h10⟩

theorem fmt2_digits (n : Nat) : ∀ c ∈ fmt2 n, c.isDigit = true := by
  intro c hc
  simp only [fmt2, List.mem_cons, List.mem_singleton, List.not_mem_nil, or_false] at hc
  rcases hc with h | h <;> (rw [h]; exact digitChar_mod_isDigit _)

theorem fmt4_digits (n : Nat) : ∀ c ∈ fmt4 n, c.isDigit = true := by
  intro c hc
  simp only [fmt4, List.mem_cons, List.mem_singleton, List.not_mem_nil, or_false] at hc
  rcases hc with h | h | h | h <;> (rw [h]; exact digitChar_mod_isDigit _)

/-- The rendered date always has the exact `dddd-dd-dd dd:dd` shape. -/
theorem dateOf_shape (m : RawMessage) :
    ∃ A4 B2 C2 D2 E2 : Str,
      dateOf m = A4 ++ '-' :: (B2 ++ '-' :: (C2 ++ ' ' :: (D2 ++ ':' :: E2))) ∧
      A4.length = 4 ∧ (∀ c ∈ A4, c.isDigit = true) ∧
      B2.length = 2 ∧ (∀ c ∈ B2, c.isDigit = true) ∧
      C2.length = 2 ∧ (∀ c ∈ C2, c.isDigit = true) ∧
      D2.length = 2 ∧ (∀ c ∈ D2, c.isDigit = true) ∧
      E2.length = 2 ∧ (∀ c ∈ E2, c.isDigit = true) := by
  cases hm : m.sent_at with
  | some ts =>
    refine ⟨fmt4 (msToDT ts).y, fmt2 (msToDT ts).mo, fmt2 (msToDT ts).d,
      fmt2 (msToDT ts).h, fmt2 (msToDT ts).mi, ?_, rfl, fmt4_digits _, rfl, fmt2_digits _,
      rfl, fmt2_digits _, rfl, fmt2_digits _, rfl, fmt2_digits _⟩
    simp [dateOf, hm, timestamp_format, fmtMinute]
  | none =>
    refine ⟨str "1970", str "01", str "01", str "00", str "00", ?_, rfl, by decide,
      rfl, by decide, rfl, by decide, rfl, by decide, rfl, by decide⟩
    simp [dateOf, hm]
    decide

theorem matchChar_self (c : Char) (rest : Str) : matchChar c (c :: rest) = some ([c], rest) := by
  simp [matchChar]

theorem matchOptComma_space (rest : Str) :
    matchOptComma (' ' :: rest) = ([], ' ' :: rest) := by
  simp [matchOptComma]

/-- Completeness: a line of the rendered shape matches the header pattern
with the expected three groups. -/
theorem headerMatch_complete (A4 B2 C2 D2 E2 sender u v : Str)
    (h4l : A4.length = 4) (h4d : ∀ c ∈ A4, c.isDigit = true)
    (hbl : B2.length = 2) (hbd : ∀ c ∈ B2, c.isDigit = true)
    (hcl : C2.length = 2) (hcd : ∀ c ∈ C2, c.isDigit = true)
    (hdl : D2.length = 2) (hdd : ∀ c ∈ D2, c.isDigit = true)
    (hel : E2.length = 2) (hed : ∀ c ∈ E2, c.isDigit = true)
    (hsc : ':' ∉ sender) (hsn : '\n' ∉ sender) (hun : '\n' ∉ u) :
    headerMatch ('[' :: (A4 ++ '-' :: (B2 ++ '-' :: (C2 ++ ' ' :: (D2 ++ ':' :: (E2 ++ ']' ::
        (' ' :: (sender ++ ':' :: (u ++ '\n' :: v)))))))))
      = some ('[' :: (A4 ++ '-' :: (B2 ++ '-' :: (C2 ++ ' ' :: (D2 ++ ':' :: (E2 ++ [']']))))),
          ' ' :: (sender ++ [':']), u ++ ['\n']) := by
  have e2 : ∀ R : Str, matchDigits 4 (A4 ++ R) = some (A4, R) := by
    intro R
    rw [← h4l]
    exact matchDigits_complete R h4d
  have e4 : ∀ R : Str, matchDigits 2 (B2 ++ R) = some (B2, R) := by
    intro R
    rw [← hbl]
    exact matchDigits_complete R hbd
  have e6 : ∀ R : Str, matchDigits 2 (C2 ++ R) = some (C2, R) := by
    intro R
    rw [← hcl]
    exact matchDigits_complete R hcd
  have e9 : ∀ R : Str, matchDigits 2 (D2 ++ R) = some (D2, R) := by
    intro R
    rw [← hdl]
    exact matchDigits_complete R hdd
  have e11 : ∀ R : Str, matchDigits 2 (E2 ++ R) = some (E2, R) := by
    intro R
    rw [← hel]
    exact matchDigits_complete R hed
  have e13 : lazyUptoColon (' ' :: (sender ++ ':' :: (u ++ '\n' :: v)))
      = some (' ' :: (sender ++ [':']), u ++ '\n' :: v) := by
    have hc2 : ':' ∉ ' ' :: sender := by
      intro hmem
      rcases List.mem_cons.mp hmem with h | h
      · exact absurd h.symm (by decide)
      · exact hsc h
    have hn2 : '\n' ∉ ' ' :: sender := by
      intro hmem
      rcases List.mem_cons.mp hmem with h | h
      · exact absurd h.symm (by decide)
      · exact hsn h
    have := lazyUptoColon_complete (u := ' ' :: sender) (u ++ '\n' :: v) hc2 hn2
    simpa using this
  have e14 : uptoNl (u ++ '\n' :: v) = some (u ++ ['\n'], v) := uptoNl_complete v hun
  simp only [headerMatch, matchChar_self, matchOptComma_space, e2, e4, e6, e9, e11, e13, e14]
  simp

theorem no_nl_of_digits {t : Str} (hd : ∀ c ∈ t, c.isDigit = true) : '\n' ∉ t :=
  fun hm => isDigit_ne_nl (hd _ hm) rfl

/-- Split a string containing a newline at its first newline. -/
theorem exists_split_first_nl : ∀ (T : Str), '\n' ∈ T →
    ∃ u v, T = u ++ '\n' :: v ∧ '\n' ∉ u := by
  intro T
  induction T with
  | nil => intro h; exact absurd h (by simp)
  | cons c cs ih =>
    intro h
    by_cases hc : c = '\n'
    · exact ⟨[], cs, by simp [hc], by simp⟩
    · have hcs : '\n' ∈ cs := by
        rcases List.mem_cons.mp h with h | h
        · exact absurd h.symm hc
        · exact h
      obtain ⟨u, v, hT, hu⟩ := ih hcs
      refine ⟨c :: u, v, by rw [List.cons_append, hT], ?_⟩
      intro hmem
      rcases List.mem_cons.mp hmem with h | h
      · exact hc h.symm
      · exact hu h

theorem npB_parts {contacts : Contacts} {is_group add_quote : Bool} {m : RawMessage}
    (h : nonPathologicalB contacts is_group add_quote m = true) :
    (':' ∉ pyShow (senderOf contacts is_group m) ∧
      '\n' ∉ pyShow (senderOf contacts is_group m)) ∧
    (∀ l ∈ (readLines (quoteStrOf add_quote m ++ msgBody contacts m ++ ['\n'])).tail,
      l.head? ≠ some '[') := by
  simp only [nonPathologicalB, Bool.and_eq_true] at h
  obtain ⟨⟨h1, _⟩, h3⟩ := h
  refine ⟨⟨?_, ?_⟩, ?_⟩
  · intro hmem
    have h2 := (List.all_eq_true.mp h1) ':' hmem
    simp at h2
  · intro hmem
    have h2 := (List.all_eq_true.mp h1) '\n' hmem
    simp at h2
  · intro l hl
    have h4 := (List.all_eq_true.mp h3) l hl
    simpa using h4

theorem render_line_last (contacts : Contacts) (is_group add_quote : Bool) (m : RawMessage) :
    (render_line contacts is_group add_quote m).getLast? = some '\n' := by
  rw [render_line]
  exact List.getLast?_concat _

theorem readLines_flatten : ∀ (rs : List Str), (∀ r ∈ rs, r.getLast? = some '\n') →
    readLines rs.flatten = (rs.map readLines).flatten := by
  intro rs
  induction rs with
  | nil => intro _; rfl
  | cons r rs ih =>
    intro h
    rw [List.flatten_cons, readLines_append _ (h r (List.mem_cons_self r rs)),
      ih (fun x hx => h x (List.mem_cons_of_mem r hx)), List.map_cons, List.flatten_cons]

/-- `readLines` of a rendered record: the header line followed by the lines
of the body remainder. -/
theorem readLines_record (A4 B2 C2 D2 E2 sender u v : Str)
    (h4 : '\n' ∉ A4) (hb : '\n' ∉ B2) (hc : '\n' ∉ C2) (hd : '\n' ∉ D2) (he : '\n' ∉ E2)
    (hs : '\n' ∉ sender) (hu : '\n' ∉ u) :
    readLines ('[' :: (A4 ++ '-' :: (B2 ++ '-' :: (C2 ++ ' ' :: (D2 ++ ':' :: (E2 ++ ']' :: (' ' :: (sender ++ ':' :: (u ++ '\n' :: v)))))))))
      = ('[' :: (A4 ++ '-' :: (B2 ++ '-' :: (C2 ++ ' ' :: (D2 ++ ':' :: (E2 ++ ']' :: (' ' :: (sender ++ ':' :: (u ++ ['\n']))))))))) :: readLines v := by
  have hX : '\n' ∉ '[' :: (A4 ++ '-' :: (B2 ++ '-' :: (C2 ++ ' ' :: (D2 ++ ':' :: (E2 ++ ']' :: (' ' :: (sender ++ ':' :: (u)))))))) := by
    intro hmem
    simp only [List.mem_cons, List.mem_append] at hmem
    rcases hmem with h | h | h | h | h | h | h | h | h | h | h | h | h | h
    · exact absurd h.symm (by decide)
    · exact h4 h
    · exact absurd h.symm (by decide)
    · exact hb h
    · exact absurd h.symm (by decide)
    · exact hc h
    · exact absurd h.symm (by decide)
    · exact hd h
    · exact absurd h.symm (by decide)
    · exact he h
    · exact absurd h.symm (by decide)
    · exact absurd h.symm (by decide)
    · exact hs h
    · rcases h with h | h
      · exact absurd h.symm (by decide)
      · exact hu h
  have hin : '[' :: (A4 ++ '-' :: (B2 ++ '-' :: (C2 ++ ' ' :: (D2 ++ ':' :: (E2 ++ ']' :: (' ' :: (sender ++ ':' :: (u ++ '\n' :: v))))))))
      = ('[' :: (A4 ++ '-' :: (B2 ++ '-' :: (C2 ++ ' ' :: (D2 ++ ':' :: (E2 ++ ']' :: (' ' :: (sender ++ ':' :: (u))))))))) ++ '\n' :: v := by
    simp
  rw [hin, readLines_break v hX]
  congr 1
  simp

theorem str_rb_sp : str "] " = [']', ' '] := by decide

theorem str_cl_sp : str ": " = [':', ' '] := by decide

/-- A rendered record reads back as one good chunk whose parsed record is
`expectedParse`. -/
theorem render_record_parse (contacts : Contacts) (is_group add_quote : Bool) (m : RawMessage)
    (h : nonPathologicalB contacts is_group add_quote m = true) :
    goodChunk (readLines (render_line contacts is_group add_quote m)) ∧
    chunkToMsg (readLines (render_line contacts is_group add_quote m)) =
      expectedParse contacts is_group add_quote m := by
  obtain ⟨⟨hsc, hsn⟩, htail⟩ := npB_parts h
  obtain ⟨A4, B2, C2, D2, E2, hdate, h4l, h4d, hbl, hbd, hcl, hcd, hdl, hdd, hel, hed⟩ :=
    dateOf_shape m
  obtain ⟨u, v, hT, hu⟩ := exists_split_first_nl
    (quoteStrOf add_quote m ++ msgBody contacts m ++ ['\n']) (by simp)
  have hs' : '\n' ∉ ' ' :: u := by
    intro hm
    rcases List.mem_cons.mp hm with h' | h'
    · exact absurd h'.symm (by decide)
    · exact hu h'
  have hrec : render_line contacts is_group add_quote m
      = '[' :: (A4 ++ '-' :: (B2 ++ '-' :: (C2 ++ ' ' :: (D2 ++ ':' :: (E2 ++ ']' ::
          (' ' :: (pyShow (senderOf contacts is_group m) ++ ':' ::
            ((' ' :: u) ++ '\n' :: v)))))))) := by
    rw [render_line, render_msg, hdate, str_rb_sp, str_cl_sp]
    have hT' : quoteStrOf add_quote m ++ (msgBody contacts m ++ ['\n']) = u ++ '\n' :: v := by
      rw [← List.append_assoc]
      exact hT
    simp only [List.append_assoc, List.cons_append, List.nil_append]
    rw [hT']
  have hlines : readLines (render_line contacts is_group add_quote m)
      = ('[' :: (A4 ++ '-' :: (B2 ++ '-' :: (C2 ++ ' ' :: (D2 ++ ':' :: (E2 ++ ']' ::
          (' ' :: (pyShow (senderOf contacts is_group m) ++ ':' ::
            ((' ' :: u) ++ ['\n'])))))))) : Str) :: readLines v := by
    rw [hrec]
    exact readLines_record A4 B2 C2 D2 E2 _ (' ' :: u) v (no_nl_of_digits h4d)
      (no_nl_of_digits hbd) (no_nl_of_digits hcd) (no_nl_of_digits hdd)
      (no_nl_of_digits hed) hsn hs'
  have hdrm : headerMatch ('[' :: (A4 ++ '-' :: (B2 ++ '-' :: (C2 ++ ' ' :: (D2 ++ ':' ::
      (E2 ++ ']' :: (' ' :: (pyShow (senderOf contacts is_group m) ++ ':' ::
        ((' ' :: u) ++ ['\n'])))))))))
      = some ('[' :: (A4 ++ '-' :: (B2 ++ '-' :: (C2 ++ ' ' :: (D2 ++ ':' :: (E2 ++ [']']))))),
          ' ' :: (pyShow (senderOf contacts is_group m) ++ [':']), (' ' :: u) ++ ['\n']) :=
    headerMatch_complete A4 B2 C2 D2 E2 _ (' ' :: u) [] h4l h4d hbl hbd hcl hcd hdl hdd
      hel hed hsc hsn hs'
  have htl : (readLines (quoteStrOf add_quote m ++ msgBody contacts m ++ ['\n'])).tail
      = readLines v := by
    rw [hT, readLines_break v hu]
    rfl
  have hconts : ∀ l ∈ readLines v, headerMatch l = none := by
    intro l hl
    have hhead := htail l (by rw [htl]; exact hl)
    refine headerMatch_none_of_head ?_
    intro c hcH hceq
    rw [hceq] at hcH
    exact hhead hcH
  constructor
  · rw [hlines]
    refine ⟨_, readLines v, rfl, ?_, hconts⟩
    rw [hdrm]
    rfl
  · rw [hlines]
    simp only [chunkToMsg, hdrm, readLines_join]
    simp only [expectedParse, PMsg.mk.injEq]
    refine ⟨?_, by first | rfl | trivial, ?_⟩
    · rw [hdate]
      simp
    · have : (' ' :: u) ++ ['\n'] ++ v = ' ' :: (u ++ '\n' :: v) := by simp
      rw [this, ← hT]

/-- **C1** (round-trip): for every message sequence without pathological
characters, parsing the transcript produced by the renderer recovers the
same count of messages — one parsed record per rendered message — and each
parsed record's date, sender and body match the rendered ones modulo the
documented decoration (brackets around the date, the sender's leading
space and trailing colon, the body's leading space, quote/reaction/
attachment markers and the trailing newline). -/
theorem c1_round_trip (contacts : Contacts) (is_group add_quote : Bool)
    (msgs : List RawMessage)
    (h : ∀ m ∈ msgs, nonPathologicalB contacts is_group add_quote m = true) :
    lines_to_msgs (readLines (create_markdown contacts is_group add_quote msgs))
      = some (msgs.map (expectedParse contacts is_group add_quote)) := by
  rw [create_markdown, readLines_flatten _ ?hlast, List.map_map, lines_to_msgs,
    l2mFold_chunks _ [] ?hgood]
  case hlast =>
    intro r hr
    obtain ⟨m, _, rfl⟩ := List.mem_map.mp hr
    exact render_line_last contacts is_group add_quote m
  case hgood =>
    intro c hc
    obtain ⟨m, hm, rfl⟩ := List.mem_map.mp hc
    exact (render_record_parse contacts is_group add_quote m (h m hm)).1
  rw [List.nil_append, List.map_map]
  congr 1
  refine List.map_congr_left ?_
  intro m hm
  exact (render_record_parse contacts is_group add_quote m (h m hm)).2

/-! ## Properties of the first-occurrence-wins dedup -/

theorem dedupFirst_nil [DecidableEq α] : dedupFirst ([] : List α) = [] := by
  rw [dedupFirst]

theorem dedupFirst_cons [DecidableEq α] (x : α) (xs : List α) :
    dedupFirst (x :: xs) = x :: dedupFirst (xs.filter (fun y => decide (y ≠ x))) := by
  rw [dedupFirst]

theorem fromKeys_eq_dedupFirst [DecidableEq α] :
    ∀ (l : List α) (seen : List α),
      fromKeys seen l = dedupFirst (l.filter (fun x => decide (x ∉ seen))) := by
  intro l
  induction l with
  | nil => intro seen; simp [fromKeys, dedupFirst_nil]
  | cons x xs ih =>
    intro seen
    by_cases hx : x ∈ seen
    · rw [fromKeys, if_pos hx, ih seen, List.filter_cons]
      simp [hx]
    · have hxd : (decide (x ∉ seen)) = true := by simp [hx]
      rw [fromKeys, if_neg hx, ih (x :: seen), List.filter_cons, hxd, if_pos rfl,
        dedupFirst_cons]
      rw [List.filter_filter]
      refine congrArg (fun t => x :: dedupFirst t) ?_
      refine List.filter_congr ?_
      intro y _
      by_cases h1 : y = x <;> by_cases h2 : y ∈ seen <;> simp [h1, h2]

theorem dedupFirst_subBound [DecidableEq α] :
    ∀ (n : Nat) (l : List α), l.length ≤ n → List.Sublist (dedupFirst l) l := by
  intro n
  induction n with
  | zero =>
    intro l h
    have : l = [] := List.length_eq_zero.mp (Nat.le_zero.mp h)
    rw [this, dedupFirst_nil]
  | succ n ih =>
    intro l h
    cases l with
    | nil => rw [dedupFirst_nil]
    | cons x xs =>
      rw [dedupFirst_cons]
      have h1 := ih (xs.filter (fun y => decide (y ≠ x)))
        (Nat.le_trans (List.length_filter_le _ _) (Nat.le_of_succ_le_succ h))
      exact List.Sublist.cons₂ x (h1.trans (List.filter_sublist xs))

theorem dedupFirst_sublist [DecidableEq α] (l : List α) :
    List.Sublist (dedupFirst l) l :=
  dedupFirst_subBound l.length l (Nat.le_refl _)

theorem dedupFirst_memBound [DecidableEq α] :
    ∀ (n : Nat) (l : List α), l.length ≤ n → ∀ a, (a ∈ dedupFirst l ↔ a ∈ l) := by
  intro n
  induction n with
  | zero =>
    intro l h a
    have : l = [] := List.length_eq_zero.mp (Nat.le_zero.mp h)
    rw [this, dedupFirst_nil]
  | succ n ih =>
    intro l h a
    cases l with
    | nil => rw [dedupFirst_nil]
    | cons x xs =>
      rw [dedupFirst_cons]
      by_cases hax : a = x
      · simp [hax]
      · have hlen : (xs.filter (fun y => decide (y ≠ x))).length ≤ n :=
          Nat.le_trans (List.length_filter_le _ _) (Nat.le_of_succ_le_succ h)
        simp only [List.mem_cons, hax, false_or, ih _ hlen a, List.mem_filter,
          decide_eq_true_eq]
        constructor
        · intro h'
          exact h'.1
        · intro h'
          exact ⟨h', hax⟩

theorem dedupFirst_mem [DecidableEq α] (l : List α) (a : α) :
    a ∈ dedupFirst l ↔ a ∈ l :=
  dedupFirst_memBound l.length l (Nat.le_refl _) a

theorem dedupFirst_nodupBound [DecidableEq α] :
    ∀ (n : Nat) (l : List α), l.length ≤ n → (dedupFirst l).Nodup := by
  intro n
  induction n with
  | zero =>
    intro l h
    have : l = [] := List.length_eq_zero.mp (Nat.le_zero.mp h)
    rw [this, dedupFirst_nil]
    exact List.nodup_nil
  | succ n ih =>
    intro l h
    cases l with
    | nil => rw [dedupFirst_nil]; exact List.nodup_nil
    | cons x xs =>
      rw [dedupFirst_cons]
      have hlen : (xs.filter (fun y => decide (y ≠ x))).length ≤ n :=
        Nat.le_trans (List.length_filter_le _ _) (Nat.le_of_succ_le_succ h)
      refine List.nodup_cons.mpr ⟨?_, ih _ hlen⟩
      intro hmem
      have := (dedupFirst_memBound n _ hlen x).mp hmem
      have := (List.mem_filter.mp this).2
      simp at this

theorem dedupFirst_nodup [DecidableEq α] (l : List α) : (dedupFirst l).Nodup :=
  dedupFirst_nodupBound l.length l (Nat.le_refl _)

/-! ## Path and file-system frame lemmas -/

theorem preNil (b : Path) : List.isPrefixOf ([] : Path) b = true := by
  cases b <;> rfl

theorem preAppend : ∀ (a x : Path), a.isPrefixOf (a ++ x) = true := by
  intro a
  induction a with
  | nil => intro x; exact preNil x
  | cons c cs ih =>
    intro x
    simp only [List.cons_append, List.isPrefixOf, Bool.and_eq_true, beq_iff_eq]
    exact ⟨by first | rfl | trivial, ih x⟩

theorem preTrans : ∀ (a b c : Path), a.isPrefixOf b = true → b.isPrefixOf c = true →
    a.isPrefixOf c = true := by
  intro a
  induction a with
  | nil => intro b c _ _; exact preNil c
  | cons x xs ih =>
    intro b c h1 h2
    cases b with
    | nil => simp [List.isPrefixOf] at h1
    | cons y ys =>
      cases c with
      | nil => simp [List.isPrefixOf] at h2
      | cons z zs =>
        simp only [List.isPrefixOf, Bool.and_eq_true, beq_iff_eq] at h1 h2 ⊢
        exact ⟨h1.1.trans h2.1, ih ys zs h1.2 h2.2⟩

theorem preComparable : ∀ (q a b : Path), a.isPrefixOf q = true → b.isPrefixOf q = true →
    a.isPrefixOf b = true ∨ b.isPrefixOf a = true := by
  intro q
  induction q with
  | nil =>
    intro a b h1 h2
    cases a with
    | nil => exact Or.inl (preNil b)
    | cons x xs => simp [List.isPrefixOf] at h1
  | cons z zs ih =>
    intro a b h1 h2
    cases a with
    | nil => exact Or.inl (preNil b)
    | cons x xs =>
      cases b with
      | nil => exact Or.inr (preNil (x :: xs))
      | cons y ys =>
        simp only [List.isPrefixOf, Bool.and_eq_true, beq_iff_eq] at h1 h2 ⊢
        rcases ih xs ys h1.2 h2.2 with h | h
        · exact Or.inl ⟨h1.1.trans h2.1.symm, h⟩
        · exact Or.inr ⟨h2.1.trans h1.1.symm, h⟩

theorem ne_of_pre_false {root q : Path} (x : List String) (h : root.isPrefixOf q = false) :
    q ≠ root ++ x := by
  intro he
  rw [he, preAppend root x] at h
  exact Bool.noConfusion h

theorem find?_filter_ne (fs : FS) (p q : Path) (h : q ≠ p) :
    (fs.filter (fun e => decide (e.1 ≠ p))).find? (fun e => decide (e.1 = q))
      = fs.find? (fun e => decide (e.1 = q)) := by
  induction fs with
  | nil => rfl
  | cons e fs ih =>
    by_cases he : e.1 = p
    · have h1 : (decide (e.1 ≠ p)) = false := by simp [he]
      have h2 : (decide (e.1 = q)) = false := by
        simp only [decide_eq_false_iff_not]
        intro hq
        exact h (hq ▸ he ▸ rfl : q = p)
      rw [List.filter_cons, h1]
      simp only [Bool.false_eq_true, if_false, ih, List.find?_cons, h2]
    · have h1 : (decide (e.1 ≠ p)) = true := by simp [he]
      rw [List.filter_cons, h1, if_pos rfl, List.find?_cons, List.find?_cons]
      cases hq : decide (e.1 = q) with
      | true => rfl
      | false => exact ih

theorem fsRead_write_ne {fs : FS} {p q : Path} {v : Str} (h : q ≠ p) :
    fsRead (fsWrite fs p v) q = fsRead fs q := by
  unfold fsRead fsWrite
  rw [List.find?_cons]
  have h1 : (decide ((p, v).1 = q)) = false := by
    simp only [decide_eq_false_iff_not]
    intro hq
    exact h (hq ▸ rfl)
  rw [h1, find?_filter_ne fs p q h]

theorem merge_attachments_frame (fs : FS) (mn mo : Path) (q : Path)
    (hq : mn.isPrefixOf q = false) :
    fsRead (merge_attachments fs mn mo) q = fsRead fs q := by
  rw [merge_attachments]
  generalize childFiles fs mo = files
  induction files generalizing fs with
  | nil => rfl
  | cons f rest ih =>
    rw [List.foldl_cons]
    by_cases hs : mn ++ [f.1] = mo ++ [f.1]
    · rw [if_pos hs]
      exact ih fs
    · rw [if_neg hs]
      rw [ih (fsWrite fs (mn ++ [f.1]) f.2)]
      exact fsRead_write_ne (ne_of_pre_false [f.1] hq)

theorem merge_chat_frame {fs fs' : FS} {pn po : Path} (h : merge_chat fs pn po = Except.ok fs')
    (q : Path) (hq : q ≠ pn) : fsRead fs' q = fsRead fs q := by
  simp only [merge_chat] at h
  split at h
  next => exact Except.noConfusion h
  next oldC e1 =>
  split at h
  next => exact Except.noConfusion h
  next newC e2 =>
  split at h
  next hempty =>
    injection h with h3
    rw [← h3]
  next hnonempty =>
  split at h
  next old new e3 e4 =>
    injection h with h3
    rw [← h3]
    exact fsRead_write_ne hq
  next => exact Except.noConfusion h

theorem copy_fold_frame : ∀ (entries : List (Path × Str)) (fs : FS) (src dst q : Path),
    dst.isPrefixOf q = false →
    fsRead (entries.foldl (fun acc e => fsWrite acc (dst ++ e.1.drop src.length) e.2) fs) q
      = fsRead fs q := by
  intro entries
  induction entries with
  | nil => intro fs src dst q hq; rfl
  | cons e rest ih =>
    intro fs src dst q hq
    rw [List.foldl_cons, ih _ src dst q hq]
    exact fsRead_write_ne (ne_of_pre_false _ hq)

theorem copytree_frame {fs fs' : FS} {src dst : Path} (h : copytree fs src dst = some fs')
    (q : Path) (hq : dst.isPrefixOf q = false) : fsRead fs' q = fsRead fs q := by
  rw [copytree] at h
  split at h
  next => exact Option.noConfusion h
  next =>
  injection h with h3
  rw [← h3]
  exact copy_fold_frame _ fs src dst q hq

theorem mwoStep_frame {dest old : Path} {fs fs' : FS} {name : String}
    (h : mwoStep dest old fs name = some fs') (q : Path)
    (hq : dest.isPrefixOf q = false) : fsRead fs' q = fsRead fs q := by
  have hdq : (dest ++ [name]).isPrefixOf q = false := by
    cases hb : (dest ++ [name]).isPrefixOf q with
    | false => rfl
    | true =>
      have := preTrans dest (dest ++ [name]) q (preAppend dest [name]) hb
      rw [hq] at this
      exact Bool.noConfusion this
  have hmq : ((dest ++ [name]) ++ ["media"]).isPrefixOf q = false := by
    cases hb : ((dest ++ [name]) ++ ["media"]).isPrefixOf q with
    | false => rfl
    | true =>
      have := preTrans (dest ++ [name]) ((dest ++ [name]) ++ ["media"]) q
        (preAppend _ ["media"]) hb
      rw [hdq] at this
      exact Bool.noConfusion this
  have hiq : q ≠ (dest ++ [name]) ++ ["index.md"] := by
    intro he
    have hpre : dest.isPrefixOf q = true := by
      rw [he, List.append_assoc]
      exact preAppend dest _
    rw [hq] at hpre
    exact Bool.noConfusion hpre
  simp only [mwoStep] at h
  split at h
  next hdir =>
    split at h
    next fs2 emc =>
      injection h with h3
      rw [← h3, merge_chat_frame emc q hiq]
      exact merge_attachments_frame _ _ _ q hmq
    next emc =>
      injection h with h3
      rw [← h3]
      exact merge_attachments_frame _ _ _ q hmq
    next emc => exact Option.noConfusion h
  next hdir =>
    exact copytree_frame h q hdq

theorem mwoGo_frame : ∀ (names : List String) (fs fs' : FS) (dest old : Path),
    mwoGo dest old fs names = some fs' → ∀ q, dest.isPrefixOf q = false →
    fsRead fs' q = fsRead fs q := by
  intro names
  induction names with
  | nil =>
    intro fs fs' dest old h q hq
    injection h with h3
    rw [h3]
  | cons name rest ih =>
    intro fs fs' dest old h q hq
    rw [mwoGo] at h
    split at h
    next fs1 hstep =>
      rw [ih fs1 fs' dest old h q hq]
      exact mwoStep_frame hstep q hq
    next => exact Option.noConfusion h

/-! ## Losslessness support -/

theorem appendToLast_flatten : ∀ (ms : List PMsg) (li : Str), ms ≠ [] →
    ((appendToLast ms li).map pmJoin).flatten = (ms.map pmJoin).flatten ++ li := by
  intro ms
  induction ms with
  | nil => intro li h; exact absurd rfl h
  | cons m ms ih =>
    intro li _
    cases ms with
    | nil => simp [appendToLast, pmJoin]
    | cons m2 ms2 =>
      have h2 := ih li (by simp)
      simp only [appendToLast, List.map_cons, List.flatten_cons] at h2 ⊢
      rw [h2]
      simp [List.append_assoc]

theorem l2mFold_flatten : ∀ (lines : List Str) (acc msgs : List PMsg),
    (∀ l ∈ lines, '\n' ∉ l.dropLast ∧ l.getLast? = some '\n') →
    l2mFold acc lines = some msgs →
    (msgs.map pmJoin).flatten = (acc.map pmJoin).flatten ++ lines.flatten := by
  intro lines
  induction lines with
  | nil =>
    intro acc msgs _ h
    have hacc : acc = msgs := by
      rw [l2mFold] at h
      exact Option.some.inj h
    simp [hacc]
  | cons li rest ih =>
    intro acc msgs hwf h
    have hwl := hwf li (List.mem_cons_self li rest)
    have hwr : ∀ l ∈ rest, '\n' ∉ l.dropLast ∧ l.getLast? = some '\n' :=
      fun l hl => hwf l (List.mem_cons_of_mem li hl)
    cases e : headerMatch li with
    | some g =>
      obtain ⟨g1, g2, g3⟩ := g
      rw [l2mFold_cons_step _ (l2mStep_header e)] at h
      have hrec := ih _ _ hwr h
      have htot := headerMatch_total hwl.1 hwl.2 e
      rw [hrec]
      simp only [List.map_append, List.flatten_append, List.map_cons, List.flatten_cons,
        List.map_nil, List.flatten_nil, List.append_nil]
      have hj : pmJoin ⟨g1, g2, g3⟩ = li := by
        rw [pmJoin]
        exact htot
      rw [hj]
      simp [List.append_assoc]
    | none =>
      cases acc with
      | nil =>
        exfalso
        rw [l2mFold] at h
        have hstep : l2mStep [] li = none := by
          rw [l2mStep, e]
        rw [hstep] at h
        exact Option.noConfusion h
      | cons a as =>
        rw [l2mFold_cons_step _ (l2mStep_cont e (by simp))] at h
        have hrec := ih _ _ hwr h
        rw [hrec, appendToLast_flatten _ li (by simp)]
        simp [List.append_assoc]

/-! ## Two-space marker support -/

theorem endsTwoSpaces_append {b : Str} (a : Str) (h : endsTwoSpaces b = true) :
    endsTwoSpaces (a ++ b) = true := by
  rw [endsTwoSpaces, decide_eq_true_eq] at h
  rw [endsTwoSpaces, decide_eq_true_eq]
  cases hb : b.reverse with
  | nil => rw [hb] at h; exact absurd h (by decide)
  | cons x r =>
    cases r with
    | nil => rw [hb] at h; simp at h
    | cons y r2 =>
      rw [hb] at h
      rw [List.reverse_append, hb]
      simp only [List.take] at h ⊢
      simpa using h

theorem endsTwoSpaces_cons {b : Str} (c : Char) (h : endsTwoSpaces b = true) :
    endsTwoSpaces (c :: b) = true := by
  have : c :: b = [c] ++ b := rfl
  rw [this]
  exact endsTwoSpaces_append [c] h

theorem attRef_ends (fn : Str) : endsTwoSpaces (attRef fn) = true := by
  rw [attRef]
  apply endsTwoSpaces_append
  apply endsTwoSpaces_cons
  apply endsTwoSpaces_append
  decide

theorem endsTwoSpaces_attRefs : ∀ (xs : List Str) (base : Str),
    endsTwoSpaces base = true →
    endsTwoSpaces (base ++ (xs.map attRef).flatten) = true := by
  intro xs
  induction xs with
  | nil => intro base h; simpa using h
  | cons x xs ih =>
    intro base h
    rw [List.map_cons, List.flatten_cons, ← List.append_assoc]
    exact ih (base ++ attRef x) (endsTwoSpaces_append base (attRef_ends x))

/-! ## Attachment-name no-space support -/

theorem no_space_sanitized (s : Str) :
    ' ' ∉ rep ':' '-' (del ',' (rep '/' '-' (rep ' ' '_' s))) := by
  intro hm
  rw [rep] at hm
  obtain ⟨y, hy, hfy⟩ := List.mem_map.mp hm
  have hy' : y = ' ' := by
    by_cases hc : y = ':'
    · rw [if_pos hc] at hfy; exact absurd hfy (by decide)
    · rwa [if_neg hc] at hfy
  subst hy'
  rw [del] at hy
  have hy2 := (List.mem_filter.mp hy).1
  rw [rep] at hy2
  obtain ⟨z, hz, hfz⟩ := List.mem_map.mp hy2
  have hz' : z = ' ' := by
    by_cases hc : z = '/'
    · rw [if_pos hc] at hfz; exact absurd hfz (by decide)
    · rwa [if_neg hc] at hfz
  subst hz'
  rw [rep] at hz
  obtain ⟨w, hw, hfw⟩ := List.mem_map.mp hz
  by_cases hc : w = ' '
  · rw [if_pos hc] at hfw; exact absurd hfw (by decide)
  · rw [if_neg hc] at hfw; exact hc hfw

theorem numPages_zero (mpp : Nat) (h : 0 < mpp) : numPages 0 mpp = 0 := by
  rw [numPages]
  exact Nat.div_eq_of_lt (by omega)

theorem numPages_succ (n mpp : Nat) (h : 0 < mpp) : numPages (n + 1) mpp = n / mpp + 1 := by
  have heq : n + 1 + mpp - 1 = n + mpp := by omega
  rw [numPages, heq, Nat.add_div_right n h]

theorem numPages_mod_zero (n mpp : Nat) (h : 0 < mpp) (hm : n % mpp = 0) :
    numPages n mpp = n / mpp := by
  obtain ⟨q, hq⟩ := Nat.dvd_of_mod_eq_zero hm
  subst hq
  rw [Nat.mul_div_cancel_left q h, numPages]
  cases q with
  | zero =>
    simp only [Nat.mul_zero, Nat.zero_add]
    exact Nat.div_eq_of_lt (by omega)
  | succ q' =>
    have heq : mpp * (q' + 1) + mpp - 1 = mpp * (q' + 1) + (mpp - 1) := by omega
    rw [heq, Nat.mul_add_div h, Nat.div_eq_of_lt (by omega)]

theorem numPages_mod_pos (n mpp : Nat) (h : 0 < mpp) (hm : n % mpp ≠ 0) :
    numPages n mpp = n / mpp + 1 := by
  have hd := Nat.div_add_mod n mpp
  have hr1 : 1 ≤ n % mpp := Nat.one_le_iff_ne_zero.mpr hm
  have hr2 : n % mpp < mpp := Nat.mod_lt _ h
  have hmul : mpp * (n / mpp + 1) = mpp * (n / mpp) + mpp := by ring
  have heq : n + mpp - 1 = mpp * (n / mpp + 1) + (n % mpp - 1) := by omega
  have hz : (n % mpp - 1) / mpp = 0 := Nat.div_eq_of_lt (by omega)
  rw [numPages, heq, Nat.mul_add_div h, hz]

theorem fold_pages (mpp lp : Nat) (h : 0 < mpp) : ∀ n,
    (List.range n).foldl (pageStep lp mpp) ([], []) =
      ((List.range (numPages n mpp)).map (pageOpen lp),
        (List.range n).map (fun i => i / mpp)) := by
  intro n
  induction n with
  | zero => simp [numPages_zero mpp h]
  | succ n ih =>
    rw [List.range_succ, List.foldl_append, ih, List.foldl_cons, List.foldl_nil]
    simp only [pageStep]
    by_cases hm : n % mpp = 0
    · have hnum0 : numPages n mpp = n / mpp := numPages_mod_zero n mpp h hm
      rw [if_pos hm]
      have hlen : ((List.range (numPages n mpp)).map (pageOpen lp)).length = n / mpp := by
        rw [List.length_map, List.length_range, hnum0]
      refine Prod.ext ?_ ?_
      · simp only [hlen]
        rw [numPages_succ n mpp h, List.range_succ, List.map_append, hnum0]
        rfl
      · simp only [List.length_append, List.length_map, List.length_range, hnum0,
          List.map_cons, List.map_nil, List.length_cons, List.length_nil]
        rw [List.map_append]
        congr 1
    · have hnum1 : numPages n mpp = n / mpp + 1 := numPages_mod_pos n mpp h hm
      rw [if_neg hm]
      refine Prod.ext ?_ ?_
      · simp only [numPages_succ n mpp h, hnum1]
      · simp only [List.length_map, List.length_range, hnum1]
        rw [List.map_append]
        congr 1

theorem create_html_pages_closed (n mpp : Nat) (h : 0 < mpp) :
    create_html_pages n mpp =
      ((List.range (numPages n mpp)).map (pageOpen (n / mpp)),
        (List.range n).map (fun i => i / mpp)) := by
  rw [create_html_pages]
  exact fold_pages mpp (n / mpp) h n

/-! ## The claims -/

/-- Witness for C1 at a concrete conversation (an outgoing text message and
an incoming message with an attachment and a reaction). -/
theorem c1_round_trip_witness :
    (∀ m ∈ [mW1, mW2], nonPathologicalB ccW false true m = true) ∧
    lines_to_msgs (readLines (create_markdown ccW false true [mW1, mW2]))
      = some ([mW1, mW2].map (expectedParse ccW false true)) :=
  ⟨by decide, c1_round_trip ccW false true [mW1, mW2] (by decide)⟩

/-- **C2**: `merge_chat` rewrites the new transcript to the concatenation
of old records then new records, deduplicated by the full joined
(date, sender, body) text with a first-occurrence-wins, order-preserving
set union (`dict.fromkeys`): the merged list is the filter-style
first-occurrence dedup, has no duplicates, is an order-preserving
sublist of the joined records, and keeps exactly the records that occur;
for old = [A,B,C], new = [B,C,D] the merge yields [A,B,C,D], and the
merged file content is written back to the new path. -/
theorem c2_merge_dedup :
    (∀ old new : List PMsg,
      mergedMsgs old new = dedupFirst ((old ++ new).map pmJoin) ∧
      (mergedMsgs old new).Nodup ∧
      List.Sublist (mergedMsgs old new) ((old ++ new).map pmJoin) ∧
      (∀ s, s ∈ mergedMsgs old new ↔ s ∈ (old ++ new).map pmJoin)) ∧
    mergedMsgs [pA, pB, pC] [pB, pC, pD] = [pmJoin pA, pmJoin pB, pmJoin pC, pmJoin pD] ∧
    (match merge_chat c2fs c2new c2old with
      | Except.ok fs2 => fsRead fs2 c2new
      | Except.error _ => none)
      = some (str "[2024-01-01 00:01] a: A\n[2024-01-01 00:02] a: B\n[2024-01-01 00:03] a: C\n[2024-01-01 00:04] a: D\n") := by
  refine ⟨?_, by decide, by decide⟩
  intro old new
  have h1 : mergedMsgs old new = dedupFirst ((old ++ new).map pmJoin) := by
    rw [mergedMsgs, fromKeys_eq_dedupFirst]
    congr 1
    refine List.filter_eq_self.mpr ?_
    intro a _
    simp
  refine ⟨h1, ?_, ?_, ?_⟩
  · rw [h1]
    exact dedupFirst_nodup _
  · rw [h1]
    exact dedupFirst_sublist _
  · intro t
    rw [h1]
    exact dedupFirst_mem _ t

/-- **C3**: for disjoint old and new trees, a completed `merge_with_old`
leaves every path under the old tree reading exactly as before (the old
tree is never written), and any path whose content changed lies under the
new tree. -/
theorem c3_merge_frame (fs fs' : FS) (dest old : Path)
    (h1 : old.isPrefixOf dest = false) (h2 : dest.isPrefixOf old = false)
    (h : merge_with_old fs dest old = some fs') :
    (∀ q, old.isPrefixOf q = true → fsRead fs' q = fsRead fs q) ∧
    (∀ q, fsRead fs' q ≠ fsRead fs q → dest.isPrefixOf q = true) := by
  rw [merge_with_old] at h
  have hframe : ∀ q, dest.isPrefixOf q = false → fsRead fs' q = fsRead fs q := by
    intro q hq
    exact mwoGo_frame (childDirs fs old) fs fs' dest old h q hq
  constructor
  · intro q hq
    cases hdq : dest.isPrefixOf q with
    | false => exact hframe q hdq
    | true =>
      exfalso
      rcases preComparable q old dest hq hdq with hc | hc
      · rw [h1] at hc
        exact Bool.noConfusion hc
      · rw [h2] at hc
        exact Bool.noConfusion hc
  · intro q hne
    cases hdq : dest.isPrefixOf q with
    | false => exact absurd (hframe q hdq) hne
    | true => rfl

/-- Witness for C3 on a concrete tree whose merge copies an attachment,
merges a transcript and copies a whole conversation directory. -/
theorem c3_merge_frame_witness :
    fsRead ((merge_with_old tW ["new"] ["old"]).getD []) ["old", "Foo", "index.md"]
      = fsRead tW ["old", "Foo", "index.md"] :=
  (c3_merge_frame tW ((merge_with_old tW ["new"] ["old"]).getD []) ["new"] ["old"]
    (by decide) (by decide) (by rfl)).1 ["old", "Foo", "index.md"] (by decide)

/-- **C4**: on input whose first line matches the header pattern,
`lines_to_msgs` never errors and returns exactly one record per
header-matching line — each record collects its header groups and all
following non-matching lines verbatim in order (the chunk decomposition) —
and on nonempty input whose first line does not match, the parse errors. -/
theorem c4_parser_chunks (L : Str) (ls : List Str) :
    ((headerMatch L).isSome = true →
      lines_to_msgs (L :: ls) = some ((splitChunks (L :: ls)).map chunkToMsg) ∧
      ((splitChunks (L :: ls)).map chunkToMsg).length
        = (L :: ls).countP (fun l => (headerMatch l).isSome)) ∧
    (headerMatch L = none → lines_to_msgs (L :: ls) = none) := by
  constructor
  · intro hL
    have hgood : ∀ c ∈ splitChunks (L :: ls), goodChunk c := by
      simp only [splitChunks]
      exact chunksGo_good ls [L] [] ⟨L, [], rfl, hL, by simp⟩ (by simp)
    have hflat : (splitChunks (L :: ls)).flatten = L :: ls := by
      simp only [splitChunks]
      rw [chunksGo_flatten]
      simp
    have hmain := l2mFold_chunks (splitChunks (L :: ls)) [] hgood
    rw [hflat] at hmain
    have hparse : lines_to_msgs (L :: ls)
        = some ((splitChunks (L :: ls)).map chunkToMsg) := by
      rw [lines_to_msgs, hmain]
      simp
    refine ⟨hparse, ?_⟩
    rw [List.length_map]
    simp only [splitChunks]
    rw [chunksGo_length]
    have hcnt : List.countP (fun l => (headerMatch l).isSome) (L :: ls)
        = List.countP (fun l => (headerMatch l).isSome) ls + 1 := by
      rw [List.countP_cons]
      simp [hL]
    rw [hcnt]
    simp
    omega
  · intro hL
    rw [lines_to_msgs, l2mFold]
    have hstep : l2mStep [] L = none := by
      rw [l2mStep, hL]
    rw [hstep]

/-- Witness for C4: a two-record transcript with a continuation line
parses into its two chunks, and input starting with a non-header line
errors. -/
theorem c4_parser_chunks_witness :
    lines_to_msgs [lH1, lCont, lH2]
      = some ((splitChunks [lH1, lCont, lH2]).map chunkToMsg) ∧
    lines_to_msgs [lBad, lH1] = none :=
  ⟨((c4_parser_chunks lH1 [lCont, lH2]).1 (by decide)).1,
   (c4_parser_chunks lBad [lH1]).2 (by decide)⟩

/-- **C5** (code bug): the claim says a contact with no display name falls
back to its phone-number-like identifier and is sanitized; the code
computes that fallback but discards it behind an `is not None` guard, so
such a contact keeps name `None` — while named contacts do get the
sanitize-and-uniquify treatment (John, John2, John3). -/
theorem c5_fix_names_bug :
    fix_names id [(str "k", ⟨none, some (str "+1"), false⟩)]
      = [(str "k", ⟨none, some (str "+1"), false⟩)] ∧
    fix_names id [(str "a", ⟨some (str "John"), none, false⟩),
        (str "b", ⟨some (str "John"), none, false⟩),
        (str "c", ⟨some (str "John"), none, false⟩)]
      = [(str "a", ⟨some (str "John"), none, false⟩),
         (str "b", ⟨some (str "John2"), none, false⟩),
         (str "c", ⟨some (str "John3"), none, false⟩)] := by
  constructor
  · decide
  · decide

/-- **C6** (amended): message `i` sits on zero-based page `i / mpp`; a
page's Prev link is disabled exactly on page 0; when the page size does
not divide the message count (or there are no messages) the last produced
page has a disabled Next; but when `mpp` divides a positive `n`, every
page's Next is enabled (the code compares against
`last_page = n / mpp`, which is one past the last produced page);
concretely 250 messages at 100 per page yield exactly pages 0, 1, 2 with
Prev disabled on the first and Next disabled on the last. -/
theorem c6_pagination :
    (∀ n mpp : Nat, 0 < mpp →
      ((create_html_pages n mpp).2 = (List.range n).map (fun i => i / mpp)) ∧
      (∀ p ∈ (create_html_pages n mpp).1, (p.prev = none ↔ p.id = 0)) ∧
      ((n % mpp ≠ 0 ∨ n = 0) →
        ∀ p, (create_html_pages n mpp).1.getLast? = some p → p.next = none) ∧
      (n % mpp = 0 → n ≠ 0 →
        ∀ p ∈ (create_html_pages n mpp).1, p.next.isSome = true)) ∧
    ((create_html_pages 250 100).1.map Page.id = [0, 1, 2] ∧
      (create_html_pages 250 100).1.head? = some ⟨0, none, some 1⟩ ∧
      (create_html_pages 250 100).1.getLast? = some ⟨2, some 1, none⟩) := by
  constructor
  · intro n mpp h
    have hc := create_html_pages_closed n mpp h
    refine ⟨by rw [hc], ?_, ?_, ?_⟩
    · intro p hp
      rw [hc] at hp
      obtain ⟨k, _, rfl⟩ := List.mem_map.mp hp
      by_cases hk0 : k = 0 <;> simp [pageOpen, hk0]
    · intro hcase p hp
      have hfst : (create_html_pages n mpp).1
          = List.map (pageOpen (n / mpp)) (List.range (numPages n mpp)) := by
        rw [hc]
      rw [hfst] at hp
      rcases hcase with hm0 | hn0
      · have hP : numPages n mpp = n / mpp + 1 := numPages_mod_pos n mpp h hm0
        rw [hP, List.range_succ, List.map_append] at hp
        simp only [List.map_cons, List.map_nil] at hp
        rw [List.getLast?_concat] at hp
        have hpe : p = pageOpen (n / mpp) (n / mpp) := (Option.some.inj hp).symm
        rw [hpe]
        simp [pageOpen]
      · subst hn0
        rw [numPages_zero mpp h] at hp
        simp at hp
    · intro hm0 hn0 p hp
      rw [hc] at hp
      obtain ⟨k, hk, rfl⟩ := List.mem_map.mp hp
      rw [List.mem_range, numPages_mod_zero n mpp h hm0] at hk
      have hkl : k ≠ n / mpp := Nat.ne_of_lt hk
      simp [pageOpen, hkl]
  · refine ⟨by decide, by decide, by decide⟩

/-- Counterexample for C6 as stated: with 100 messages and page size 100
(a positive page size), the single produced page's Next link is enabled
and points at a nonexistent page 1 — no page has a disabled Next. -/
theorem c6_pagination_cex :
    0 < 100 ∧
    (create_html_pages 100 100).1 = [⟨0, none, some 1⟩] ∧
    ((create_html_pages 100 100).1.getLast?).map Page.next = some (some 1) := by
  refine ⟨by decide, by decide, by decide⟩

/-- Witness for C6 at 5 messages, 2 per page. -/
theorem c6_pagination_witness :
    (create_html_pages 5 2).2 = (List.range 5).map (fun i => i / 2) :=
  ((c6_pagination.1) 5 2 (by decide)).1

/-- **C7** (amended): the record rendered for a message without a
body-replacing sticker and with no reactions — including one with
attachments — ends with the two-space soft-break marker right before the
newline added on write; a sticker body or a trailing reaction block
removes the marker from the end. -/
theorem c7_two_space_marker (contacts : Contacts) (is_group add_quote : Bool)
    (m : RawMessage) (hst : stickerReplaces m = false) (hre : m.reactions = []) :
    endsTwoSpaces (render_msg contacts is_group add_quote m) = true := by
  have hbody : msgBody contacts m
      = ((bodyBase m).filter (fun c => decide (c ≠ btick)) ++ str "  ")
        ++ (m.attachments.map attRef).flatten := by
    rw [msgBody]
    cases hs : m.sticker with
    | none => simp [hre]
    | some o =>
      cases o with
      | none => simp [hre]
      | some e =>
        rw [stickerReplaces, hs] at hst
        exact Bool.noConfusion hst
  rw [render_msg]
  apply endsTwoSpaces_cons
  repeat apply endsTwoSpaces_append
  rw [hbody]
  exact endsTwoSpaces_attRefs m.attachments _ (endsTwoSpaces_append _ (by decide))

/-- Counterexample for C7 as stated: a sticker message's record ends with
the sticker emoji, and a message with a reaction ends with the reaction
block `-)`; neither ends with the two-space marker. -/
theorem c7_two_space_cex :
    endsTwoSpaces (render_msg [] false false stickerM) = false ∧
    endsTwoSpaces (render_msg [(str "c1", ⟨some (str "Bob"), none, false⟩)] false false reactM)
      = false := by
  refine ⟨by decide, by decide⟩

/-- Witness for C7 on a message with an attachment. -/
theorem c7_two_space_marker_witness :
    stickerReplaces mW3 = false ∧ mW3.reactions = [] ∧
    endsTwoSpaces (render_msg ccW false true mW3) = true :=
  ⟨by decide, by decide, c7_two_space_marker ccW false true mW3 (by decide) (by decide)⟩

/-- **C8** (code bug): the claim (and the code's own log message) says a
file already present at the destination is skipped and kept; but
`shutil.copy2` only raises `SameFileError` when source and destination are
the same file, so a colliding file in the new media directory is
overwritten with the old file's content. -/
theorem c8_attachments_overwrite :
    fsRead c8fs ["new", "media", "x.jpg"] = some (str "NEW") ∧
    fsRead (merge_attachments c8fs ["new", "media"] ["old", "media"]) ["new", "media", "x.jpg"]
      = some (str "OLD") := by
  refine ⟨by decide, by decide⟩

/-- **C9**: the attachment planner names an attachment
`{isoTimestampWithDashes}_{twoDigitIndex}_{fileName}`; at the spec's
example (path `a\b.jpg`, timestamp 2024-01-02T03:04:05.006Z, index 0) the
basename is `2024-01-02T03-04-05.006_00_b.jpg`, the source path separator
is normalised, and no produced name ever contains a space. -/
theorem c9_attachment_name :
    copy_attachments_name 1704164645006 0 (some (str "b.jpg")) (str "image/jpeg")
      = str "2024-01-02T03-04-05.006_00_b.jpg" ∧
    att_path_norm (str "a\\b.jpg") = str "a/b.jpg" ∧
    ∀ (ts i : Nat) (fn : Option Str) (ct : Str),
      (copy_attachments_name ts i fn ct).contains ' ' = false := by
  refine ⟨by decide, by decide, ?_⟩
  intro ts i fn ct
  have hS : ∀ S : Str,
      (rep ':' '-' (del ',' (rep '/' '-' (rep ' ' '_' S)))).contains ' ' = false := by
    intro S
    cases hcon : (rep ':' '-' (del ',' (rep '/' '-' (rep ' ' '_' S)))).contains ' ' with
    | false => rfl
    | true =>
      exfalso
      exact no_space_sanitized S (List.mem_of_elem_eq_true hcon)
  cases fn with
  | none => exact hS _
  | some f => exact hS _

/-- **C10**: for wellformed transcript lines (each a single
newline-terminated line), a successful parse loses no text — the
concatenation of the header, sender and body fields of the parsed records
reproduces the concatenation of the input lines byte for byte, which is
what makes `merge_chat`'s rewrite of the transcript from joined fields
safe. -/
theorem c10_parse_lossless (lines : List Str) (msgs : List PMsg)
    (hwf : ∀ l ∈ lines, '\n' ∉ l.dropLast ∧ l.getLast? = some '\n')
    (h : lines_to_msgs lines = some msgs) :
    (msgs.map pmJoin).flatten = lines.flatten := by
  have := l2mFold_flatten lines [] msgs hwf h
  simpa using this

/-- Witness for C10 on a transcript with a continuation line. -/
theorem c10_parse_lossless_witness :
    (([⟨str "[2024-01-01 00:01]", str " a:", str " A  \ncont\n"⟩,
       ⟨str "[2024-01-01 00:02]", str " b:", str " B  \n"⟩] : List PMsg).map pmJoin).flatten
      = [lH1, lCont, lH2].flatten :=
  c10_parse_lossless [lH1, lCont, lH2]
    [⟨str "[2024-01-01 00:01]", str " a:", str " A  \ncont\n"⟩,
     ⟨str "[2024-01-01 00:02]", str " b:", str " B  \n"⟩]
    (by decide) (by decide)

end SigExport
